import Mathlib

/-!
Verification development for an MXINT4 systolic-array matrix multiplier.

The C++ sources consist of
* `src/sa.h`    : constants and the dequantization primitive `unpack_dequantize_weight`;
* `src/sa.cpp`  : the tiled compute engine `SystolicArrayKernel` with file-scope
                  static caches `A_cache`, `W_cache`, `A_work`, `W_work`, `C_work`;
* `main.cpp`    : the quantization codec `quantize_mxint4` and the reference
                  model `cpu_reference`.

Modelling conventions:
* C `int8_t` / `int32_t` values are integers; conversions that truncate are made
  explicit through `toInt8` / `toInt32` (two's-complement wrap, the behaviour of
  the compilers this HLS code targets).
* C `float` weights are modelled as rationals; `floor(log2 x)` is `Int.log 2 x`
  (the exact floor of the base-2 logarithm), `std::round` is `cround`
  (round half away from zero).
* flat buffers are lists indexed with `List.getD · 0`; the tapa mmap output
  buffer is a function `ℕ → ℤ` updated in place with `Function.update`.
* loops become `List.foldl` over explicit index lists that follow the source's
  iteration order.
-/

set_option maxRecDepth 100000

namespace SA

/-- Wrap an integer to the range of a two's-complement signed 8-bit value,
modelling C conversions to `int8_t`. -/
def toInt8 (x : ℤ) : ℤ := (x + 128) % 256 - 128

/-- Wrap an integer to the range of a two's-complement signed 32-bit value,
modelling C `int32_t` arithmetic. -/
def toInt32 (x : ℤ) : ℤ := (x + 2 ^ 31) % 2 ^ 32 - 2 ^ 31

/-- sa.h: `const int M_DIM = 128`. -/
def M_DIM : ℕ := 128

/-- sa.h: `const int K_DIM = 4096`. -/
def K_DIM : ℕ := 4096

/-- sa.h: `const int N_DIM = 512`. -/
def N_DIM : ℕ := 512

/-- sa.h: `const int PE_ROWS = 16`. -/
def PE_ROWS : ℕ := 16

/-- sa.h: `const int PE_COLS = 16`. -/
def PE_COLS : ℕ := 16

/-- sa.h: `const int GROUP_SIZE = 16`. -/
def GROUP_SIZE : ℕ := 16

/-- sa.h `unpack_dequantize_weight`: select a nibble of the packed byte,
sign-extend it to a signed value in `[-8, 7]`, then left-shift by
`(scale_factor & 0x3) * 2`.  The result is returned as `int8_t`, hence the
final `toInt8` truncation. -/
def unpack_dequantize_weight (packed_byte : ℕ) (is_upper : Bool) (scale_factor : ℕ) : ℤ :=
  let nib : ℕ := if is_upper then packed_byte / 16 % 16 else packed_byte % 16
  let w_4bit : ℤ := if 8 ≤ nib then (nib : ℤ) - 16 else (nib : ℤ)
  let shift_amount : ℕ := scale_factor % 4 * 2
  toInt8 (w_4bit * 2 ^ shift_amount)

/-- Round half away from zero, the semantics of C `std::round`. -/
def cround (q : ℚ) : ℤ := if 0 ≤ q then round q else -round (-q)

/-- Clamp an integer to `[lo, hi]` the way the C source writes
`std::max(lo, std::min(hi, x))`. -/
def clampI (lo hi x : ℤ) : ℤ := max lo (min hi x)

/-- main.cpp `quantize_mxint4`, max-absolute-value scan of one group:
`for i in [0, GROUP_SIZE): max_abs = max(max_abs, fabs(w[base_idx + i]))`. -/
def groupMaxAbs (ws : List ℚ) (base : ℕ) : ℚ :=
  (List.range GROUP_SIZE).foldl (fun m i => max m |ws.getD (base + i) 0|) 0

/-- main.cpp `quantize_mxint4`, scale derivation of one group:
`shift = floor(log2 max_abs) - 3` clamped as `max(0, min(3, shift))`,
and `0` when `max_abs` is not positive. -/
def groupShift (maxAbs : ℚ) : ℕ :=
  if 0 < maxAbs then (max 0 (min 3 (Int.log 2 maxAbs - 3))).toNat else 0

/-- main.cpp `quantize_mxint4`, quantization of a single weight:
divide by `scale_val = 2^(shift*2)`, `std::round`, convert to `int8_t`
(a two's-complement truncation), then clamp to `[-8, 7]`. -/
def quantWeight (w : ℚ) (shift : ℕ) : ℤ :=
  clampI (-8) 7 (toInt8 (cround (w / 2 ^ (shift * 2))))

/-- Low 4 bits of a quantized weight, the C expression `w & 0x0F`. -/
def nibbleOf (w : ℤ) : ℕ := (w % 16).toNat

/-- main.cpp `quantize_mxint4`: produce the packed-nibble byte list and the
scale list.  Output byte `p` packs elements `2p` (low nibble) and `2p + 1`
(high nibble) of group `p / 8`; a byte whose group index is not below
`total / GROUP_SIZE` is never written by the group loop and keeps the zero the
`resize` call put there. -/
def quantize_mxint4 (ws : List ℚ) (K N : ℕ) : List ℕ × List ℕ :=
  let total := K * N
  ((List.range (total / 2)).map fun p =>
      if p / 8 < total / GROUP_SIZE then
        let s := groupShift (groupMaxAbs ws (p / 8 * GROUP_SIZE))
        nibbleOf (quantWeight (ws.getD (2 * p) 0) s) +
          16 * nibbleOf (quantWeight (ws.getD (2 * p + 1) 0) s)
      else 0,
    (List.range (total / GROUP_SIZE)).map fun g => groupShift (groupMaxAbs ws (g * GROUP_SIZE)))

/-- Dequantized weight at flattened weight index `k * N + n`, exactly the index
expressions shared by `cpu_reference` and phase 2 of the kernel: packed byte
`(k*N+n) / 2`, upper nibble iff `k*N+n` is odd, scale byte `(k*N+n) / GROUP_SIZE`. -/
def deqAt (weights_packed scales : List ℕ) (N k n : ℕ) : ℤ :=
  unpack_dequantize_weight (weights_packed.getD ((k * N + n) / 2) 0)
    ((k * N + n) % 2 == 1) (scales.getD ((k * N + n) / GROUP_SIZE) 0)

/-- main.cpp `cpu_reference`, inner accumulation for one output element:
`sum = 0; for k: sum += (int32_t)act[m*K+k] * (int32_t)w` with `int32_t`
arithmetic. -/
def refElem (act : List ℤ) (wp sc : List ℕ) (K N m n : ℕ) : ℤ :=
  (List.range K).foldl
    (fun sum k => toInt32 (sum + act.getD (m * K + k) 0 * deqAt wp sc N k n)) 0

/-- main.cpp `cpu_reference`: the output vector is resized to `M * N` zeros and
`out[m*N + n]` is assigned for every `m < M`, `n < N`; it is modelled as a
function from the flat index. -/
def cpu_reference (act : List ℤ) (wp sc : List ℕ) (M K N : ℕ) : ℕ → ℤ :=
  ((List.range M).product (List.range N)).foldl
    (fun out mn => Function.update out (mn.1 * N + mn.2) (refElem act wp sc K N mn.1 mn.2))
    (fun _ => 0)

/-- Closed form of `groupShift` by the power-of-two thresholds 16, 32, 64;
used to evaluate the scale on concrete groups without unfolding `Int.log`. -/
theorem groupShift_eval (q : ℚ) :
    groupShift q = if q < 16 then 0 else if q < 32 then 1 else if q < 64 then 2 else 3 := by
  unfold groupShift
  by_cases h0 : 0 < q
  · have hb : (1 : ℕ) < 2 := by norm_num
    by_cases h16 : q < 16
    · have hlog : Int.log 2 q < 4 := by
        rw [← Int.lt_zpow_iff_log_lt hb h0]
        push_cast
        norm_num
        exact h16
      simp only [h0, if_true, h16, if_true]
      have : min 3 (Int.log 2 q - 3) ≤ 0 := le_trans (min_le_right _ _) (by omega)
      omega
    · have h16' : (16 : ℚ) ≤ q := le_of_not_lt h16
      by_cases h32 : q < 32
      · have hlo : 4 ≤ Int.log 2 q := by
          rw [← Int.zpow_le_iff_le_log hb h0]
          push_cast
          norm_num
          exact h16'
        have hhi : Int.log 2 q < 5 := by
          rw [← Int.lt_zpow_iff_log_lt hb h0]
          push_cast
          norm_num
          exact h32
        simp only [h0, if_true, h16, if_false, h32, if_true]
        omega
      · have h32' : (32 : ℚ) ≤ q := le_of_not_lt h32
        by_cases h64 : q < 64
        · have hlo : 5 ≤ Int.log 2 q := by
            rw [← Int.zpow_le_iff_le_log hb h0]
            push_cast
            norm_num
            exact h32'
          have hhi : Int.log 2 q < 6 := by
            rw [← Int.lt_zpow_iff_log_lt hb h0]
            push_cast
            norm_num
            exact h64
          simp only [h0, if_true, h16, if_false, h32, if_false, h64, if_true]
          omega
        · have h64' : (64 : ℚ) ≤ q := le_of_not_lt h64
          have hlo : 6 ≤ Int.log 2 q := by
            rw [← Int.zpow_le_iff_le_log hb h0]
            push_cast
            norm_num
            exact h64'
          simp only [h0, if_true, h16, if_false, h32, if_false, h64, if_false]
          omega
  · have hq : q ≤ 0 := le_of_not_lt h0
    have : q < 16 := lt_of_le_of_lt hq (by norm_num)
    simp [h0, this]

/-! ### The tiled compute engine, sa.cpp

The file-scope statics `A_cache[8][PE_ROWS][K_DIM]`, `W_cache[32][PE_COLS][K_DIM]`,
`A_work[PE_ROWS][K_DIM]`, `W_work[PE_COLS][K_DIM]`, `C_work[PE_ROWS][PE_COLS]`
are modelled as total functions from index tuples; the loops of the kernel
become folds over explicit index lists in the source's iteration order, with
`Function.update` for each array store. -/

/-- File-scope static state of sa.cpp. -/
structure SAState where
  A_cache : ℕ × ℕ × ℕ → ℤ
  W_cache : ℕ × ℕ × ℕ → ℤ
  A_work : ℕ × ℕ → ℤ
  W_work : ℕ × ℕ → ℤ
  C_work : ℕ × ℕ → ℤ

/-- Iteration domain of the `load_all_act` / `load_act_tile` nest:
`m_tile` in `[0, M/PE_ROWS)`, flat `idx` in `[0, PE_ROWS*K)`. -/
def phase1List (M K : ℕ) : List (ℕ × ℕ) :=
  (List.range (M / PE_ROWS)).product (List.range (PE_ROWS * K))

/-- Iteration domain of the `load_all_wgt` / `load_wgt_tile` nest. -/
def phase2List (N K : ℕ) : List (ℕ × ℕ) :=
  (List.range (N / PE_COLS)).product (List.range (PE_COLS * K))

/-- Iteration domain of the `m_loop` / `n_loop` tile nest of phase 3. -/
def tileList (M N : ℕ) : List (ℕ × ℕ) :=
  (List.range (M / PE_ROWS)).product (List.range (N / PE_COLS))

/-- Iteration domain of one `copy_to_work` loop: `k` outer, row index inner. -/
def copyList (K : ℕ) : List (ℕ × ℕ) :=
  (List.range K).product (List.range PE_ROWS)

/-- Iteration domain of the accumulator-cell nests (`i` outer, `j` inner). -/
def cellList : List (ℕ × ℕ) :=
  (List.range PE_ROWS).product (List.range PE_COLS)

/-- Iteration domain of the `write_output` loop. -/
def outList : List ℕ := List.range (PE_ROWS * PE_COLS)

/-- Flat result index written by `write_output` at loop counter `idx`:
`result[(m_tile*PE_ROWS + idx/PE_COLS) * N + (n_tile*PE_COLS + idx%PE_COLS)]`. -/
def outKey (m_tile n_tile N idx : ℕ) : ℕ :=
  (m_tile * PE_ROWS + idx / PE_COLS) * N + (n_tile * PE_COLS + idx % PE_COLS)

/-- Phase 1 of sa.cpp: copy the activation matrix into `A_cache`;
`A_cache[m_tile][idx/K][idx%K] = activations[(m_tile*PE_ROWS + idx/K)*K + idx%K]`. -/
def phase1 (activations : List ℤ) (M K : ℕ) (A0 : ℕ × ℕ × ℕ → ℤ) : ℕ × ℕ × ℕ → ℤ :=
  (phase1List M K).foldl
    (fun A mi =>
      Function.update A (mi.1, mi.2 / K, mi.2 % K)
        (activations.getD ((mi.1 * PE_ROWS + mi.2 / K) * K + mi.2 % K) 0))
    A0

/-- Phase 2 of sa.cpp: dequantize every weight of every N-tile into `W_cache`;
with `j = idx/K`, `k = idx%K`, `n_idx = n_tile*PE_COLS + j` it stores
`W_cache[n_tile][j][k] = unpack_dequantize_weight` of the byte, nibble flag and
scale at `w_linear = k*N + n_idx`. -/
def phase2 (weights_packed scales : List ℕ) (K N : ℕ) (W0 : ℕ × ℕ × ℕ → ℤ) : ℕ × ℕ × ℕ → ℤ :=
  (phase2List N K).foldl
    (fun W ni =>
      Function.update W (ni.1, ni.2 / K, ni.2 % K)
        (deqAt weights_packed scales N (ni.2 % K) (ni.1 * PE_COLS + ni.2 / K)))
    W0

/-- The `copy_to_work` stores into `A_work`.  The source interleaves the
`A_work` and `W_work` copies inside one `k` loop; the two loops touch disjoint
buffers, so they are modelled as two separate folds. -/
def copyAWork (Ac : ℕ × ℕ × ℕ → ℤ) (m_tile K : ℕ) (A0 : ℕ × ℕ → ℤ) : ℕ × ℕ → ℤ :=
  (copyList K).foldl
    (fun A ki => Function.update A (ki.2, ki.1) (Ac (m_tile, ki.2, ki.1))) A0

/-- The `copy_to_work` stores into `W_work`. -/
def copyWWork (Wc : ℕ × ℕ × ℕ → ℤ) (n_tile K : ℕ) (W0 : ℕ × ℕ → ℤ) : ℕ × ℕ → ℤ :=
  (copyList K).foldl
    (fun W ki => Function.update W (ki.2, ki.1) (Wc (n_tile, ki.2, ki.1))) W0

/-- The `INITIALIZE OUTPUT` nest: `C_work[i][j] = 0` for all cells. -/
def zeroC (C0 : ℕ × ℕ → ℤ) : ℕ × ℕ → ℤ :=
  cellList.foldl (fun C ij => Function.update C ij 0) C0

/-- The `compute` loop: for each `k`, every cell does
`C_work[i][j] += (int32_t)A_work[i][k] * (int32_t)W_work[j][k]`. -/
def computeTile (Aw Ww : ℕ × ℕ → ℤ) (K : ℕ) (C0 : ℕ × ℕ → ℤ) : ℕ × ℕ → ℤ :=
  (List.range K).foldl
    (fun C k =>
      cellList.foldl
        (fun C' ij => Function.update C' ij (toInt32 (C' ij + Aw (ij.1, k) * Ww (ij.2, k))))
        C)
    C0

/-- The `write_output` loop: store the accumulator tile to the result buffer. -/
def writeOutput (Cw : ℕ × ℕ → ℤ) (m_tile n_tile N : ℕ) (res : ℕ → ℤ) : ℕ → ℤ :=
  outList.foldl
    (fun r idx => Function.update r (outKey m_tile n_tile N idx) (Cw (idx / PE_COLS, idx % PE_COLS)))
    res

/-- Body of the `m_loop`/`n_loop` nest of phase 3 for one `(m_tile, n_tile)`. -/
def tileStep (K N : ℕ) (sr : SAState × (ℕ → ℤ)) (mn : ℕ × ℕ) : SAState × (ℕ → ℤ) :=
  let Aw := copyAWork sr.1.A_cache mn.1 K sr.1.A_work
  let Ww := copyWWork sr.1.W_cache mn.2 K sr.1.W_work
  let Cw := computeTile Aw Ww K (zeroC sr.1.C_work)
  ({ sr.1 with A_work := Aw, W_work := Ww, C_work := Cw },
    writeOutput Cw mn.1 mn.2 N sr.2)

/-- Phase 3 of sa.cpp: all `(m_tile, n_tile)` pairs in row-major order. -/
def phase3 (st : SAState) (M K N : ℕ) (res0 : ℕ → ℤ) : SAState × (ℕ → ℤ) :=
  (tileList M N).foldl (tileStep K N) (st, res0)

/-- sa.cpp `SystolicArrayKernel`: phase 1, phase 2, then phase 3.  `st` is the
content of the file-scope statics when the kernel is entered and `res0` the
content of the `result` mmap buffer; the call returns the statics and the
result buffer as the kernel leaves them. -/
def SystolicArrayKernel (activations : List ℤ) (weights_packed scales : List ℕ)
    (M K N : ℕ) (st : SAState) (res0 : ℕ → ℤ) : SAState × (ℕ → ℤ) :=
  let st1 : SAState := { st with A_cache := phase1 activations M K st.A_cache }
  let st2 : SAState := { st1 with W_cache := phase2 weights_packed scales K N st1.W_cache }
  phase3 st2 M K N res0

/-! ### Access-index lists

Each list collects, in program order, the indices one loop nest uses into a
buffer; they are read off the same iteration-domain lists the folds above use. -/

/-- Indices into the `activations` mmap read by phase 1. -/
def actReadIdxs (M K : ℕ) : List ℕ :=
  (phase1List M K).map fun mi => (mi.1 * PE_ROWS + mi.2 / K) * K + mi.2 % K

/-- Index tuples of the stores into `A_cache` performed by phase 1. -/
def AcacheWriteIdxs (M K : ℕ) : List (ℕ × ℕ × ℕ) :=
  (phase1List M K).map fun mi => (mi.1, mi.2 / K, mi.2 % K)

/-- Flattened weight indices `w_linear = k*N + n_idx` visited by phase 2. -/
def wgtLinearIdxs (K N : ℕ) : List ℕ :=
  (phase2List N K).map fun ni => ni.2 % K * N + (ni.1 * PE_COLS + ni.2 / K)

/-- Indices into the `weights_packed` mmap read by phase 2. -/
def wgtReadIdxs (K N : ℕ) : List ℕ :=
  (wgtLinearIdxs K N).map (· / 2)

/-- Indices into the `scales` mmap read by phase 2. -/
def scaleReadIdxs (K N : ℕ) : List ℕ :=
  (wgtLinearIdxs K N).map (· / GROUP_SIZE)

/-- Index tuples of the stores into `W_cache` performed by phase 2. -/
def WcacheWriteIdxs (N K : ℕ) : List (ℕ × ℕ × ℕ) :=
  (phase2List N K).map fun ni => (ni.1, ni.2 / K, ni.2 % K)

/-- Index tuples of the `A_cache` reads performed by the phase-3 copies. -/
def AcacheReadIdxs (M N K : ℕ) : List (ℕ × ℕ × ℕ) :=
  (tileList M N).flatMap fun mn => (copyList K).map fun ki => (mn.1, ki.2, ki.1)

/-- Index tuples of the `W_cache` reads performed by the phase-3 copies. -/
def WcacheReadIdxs (M N K : ℕ) : List (ℕ × ℕ × ℕ) :=
  (tileList M N).flatMap fun mn => (copyList K).map fun ki => (mn.2, ki.2, ki.1)

/-- Indices into the `result` mmap written by phase 3. -/
def resultWriteIdxs (M N : ℕ) : List ℕ :=
  (tileList M N).flatMap fun mn => outList.map fun idx => outKey mn.1 mn.2 N idx

/-! ### Generic lemmas about folds of array stores -/

theorem product_eq_sprod {α β : Type _} (l₁ : List α) (l₂ : List β) :
    l₁.product l₂ = l₁ ×ˢ l₂ := rfl

theorem mem_rangeProduct {a b x y : ℕ} :
    (x, y) ∈ (List.range a).product (List.range b) ↔ x < a ∧ y < b := by
  rw [product_eq_sprod, List.mem_product, List.mem_range, List.mem_range]

theorem nodup_rangeProduct (a b : ℕ) : ((List.range a).product (List.range b)).Nodup := by
  rw [product_eq_sprod]
  exact (List.nodup_range _).product (List.nodup_range _)

/-- A fold of stores never touching index `x` leaves the array unchanged at `x`. -/
theorem foldl_update_not_mem {α κ β : Type _} [DecidableEq κ] (l : List α) (key : α → κ)
    (val : α → (κ → β) → β) (f0 : κ → β) (x : κ) (h : ∀ a ∈ l, key a ≠ x) :
    (l.foldl (fun f a => Function.update f (key a) (val a f)) f0) x = f0 x := by
  induction l generalizing f0 with
  | nil => rfl
  | cons a t ih =>
    simp only [List.foldl_cons]
    rw [ih _ fun b hb => h b (List.mem_cons_of_mem _ hb)]
    exact Function.update_noteq (Ne.symm (h a (List.mem_cons_self a t))) _ _

/-- A fold of stores whose values do not depend on the array state: if every
store aimed at `x` stores `v` and at least one is, the final value at `x` is `v`. -/
theorem foldl_update_const_unique {α κ β : Type _} [DecidableEq κ] (l : List α) (key : α → κ)
    (val : α → β) (f0 : κ → β) (x : κ) (v : β)
    (h1 : ∃ a ∈ l, key a = x) (h2 : ∀ a ∈ l, key a = x → val a = v) :
    (l.foldl (fun f a => Function.update f (key a) (val a)) f0) x = v := by
  induction l generalizing f0 with
  | nil => simp at h1
  | cons a t ih =>
    simp only [List.foldl_cons]
    by_cases ht : ∃ b ∈ t, key b = x
    · exact ih _ ht fun b hb => h2 b (List.mem_cons_of_mem _ hb)
    · have hax : key a = x := by
        rcases h1 with ⟨b, hb, hbx⟩
        rcases List.mem_cons.mp hb with rfl | hbt
        · exact hbx
        · exact absurd ⟨b, hbt, hbx⟩ ht
      have hmiss : ∀ b ∈ t, key b ≠ x := fun b hb hbx => ht ⟨b, hb, hbx⟩
      rw [foldl_update_not_mem t key (fun b _ => val b) _ x hmiss, hax,
        Function.update_same]
      exact h2 a (List.mem_cons_self a t) hax

/-- A pass that updates each index of a duplicate-free list from its own old
value acts as a pointwise map on the listed indices. -/
theorem foldl_update_self {κ β : Type _} [DecidableEq κ] (l : List κ) (hnd : l.Nodup)
    (g : κ → β → β) (f0 : κ → β) (x : κ) :
    (l.foldl (fun f k => Function.update f k (g k (f k))) f0) x
      = if x ∈ l then g x (f0 x) else f0 x := by
  induction l generalizing f0 with
  | nil => simp
  | cons a t ih =>
    have hnd' := List.nodup_cons.mp hnd
    simp only [List.foldl_cons]
    rw [ih hnd'.2]
    by_cases hx : x ∈ t
    · have hxa : x ≠ a := fun h => hnd'.1 (h ▸ hx)
      rw [Function.update_noteq hxa]
      simp [hx, hxa, List.mem_cons]
    · by_cases hxa : x = a
      · subst hxa
        simp [hx, Function.update_same]
      · rw [Function.update_noteq hxa]
        simp [hx, hxa, List.mem_cons]

/-- Flattening a nested fold into a fold over tagged pairs. -/
theorem foldl_foldl_flatMap {α γ β : Type _} (l : List α) (m : α → List γ)
    (f : α → β → γ → β) (b : β) :
    l.foldl (fun r a => (m a).foldl (f a) r) b
      = (l.flatMap fun a => (m a).map fun c => (a, c)).foldl (fun r p => f p.1 r p.2) b := by
  induction l generalizing b with
  | nil => rfl
  | cons a t ih =>
    simp only [List.foldl_cons, List.flatMap_cons, List.foldl_append, List.foldl_map]
    exact ih _

/-! ### Index arithmetic -/

theorem idx_div {i k K : ℕ} (hk : k < K) : (i * K + k) / K = i := by
  have hK : 0 < K := Nat.lt_of_le_of_lt (Nat.zero_le _) hk
  rw [add_comm, Nat.add_mul_div_right _ _ hK, Nat.div_eq_of_lt hk, Nat.zero_add]

theorem idx_mod {i k K : ℕ} (hk : k < K) : (i * K + k) % K = k := by
  rw [add_comm, Nat.add_mul_mod_self_right]
  exact Nat.mod_eq_of_lt hk

/-- A flat index `a * N + b` with `b < N` determines `a` and `b`. -/
theorem flatIndex_inj {N a b c d : ℕ} (hb : b < N) (hd : d < N)
    (h : a * N + b = c * N + d) : a = c ∧ b = d := by
  constructor
  · rw [← idx_div (i := a) hb, h, idx_div hd]
  · rw [← idx_mod (i := a) hb, h, idx_mod hd]

/-! ### Pointwise characterization of the kernel phases -/

/-- Phase 1 fills exactly the cells `(t, i, k)` with `t` a loaded M-tile,
`i < PE_ROWS`, `k < K`, and leaves every other cell of `A_cache` alone. -/
theorem phase1_apply (act : List ℤ) (M K : ℕ) (A0 : ℕ × ℕ × ℕ → ℤ) (t i k : ℕ) :
    phase1 act M K A0 (t, i, k)
      = if t < M / PE_ROWS ∧ i < PE_ROWS ∧ k < K
        then act.getD ((t * PE_ROWS + i) * K + k) 0 else A0 (t, i, k) := by
  unfold phase1 phase1List
  split_ifs with h
  · obtain ⟨ht, hi, hk⟩ := h
    refine foldl_update_const_unique _ (fun mi : ℕ × ℕ => (mi.1, mi.2 / K, mi.2 % K))
      (fun mi : ℕ × ℕ => act.getD ((mi.1 * PE_ROWS + mi.2 / K) * K + mi.2 % K) 0) A0 _ _
      ⟨(t, i * K + k), ?_, ?_⟩ ?_
    · refine mem_rangeProduct.mpr ⟨ht, ?_⟩
      calc i * K + k < i * K + K := Nat.add_lt_add_left hk _
        _ = (i + 1) * K := by ring
        _ ≤ PE_ROWS * K := Nat.mul_le_mul_right _ hi
    · simp only [idx_div hk, idx_mod hk]
    · rintro ⟨m1, m2⟩ hmi hkey
      simp only [Prod.mk.injEq] at hkey
      obtain ⟨h1, h2, h3⟩ := hkey
      simp only [h1, h2, h3]
  · refine foldl_update_not_mem _ (fun mi : ℕ × ℕ => (mi.1, mi.2 / K, mi.2 % K)) _ A0 _ ?_
    rintro ⟨m1, m2⟩ hmi hkey
    rw [mem_rangeProduct] at hmi
    obtain ⟨hm1, hm2⟩ := hmi
    have hK : 0 < K := by
      by_contra hK0
      rw [Nat.eq_zero_of_not_pos hK0, Nat.mul_zero] at hm2
      exact Nat.not_lt_zero _ hm2
    simp only [Prod.mk.injEq] at hkey
    obtain ⟨h1, h2, h3⟩ := hkey
    refine h ⟨h1 ▸ hm1, ?_, h3 ▸ Nat.mod_lt _ hK⟩
    rw [← h2]
    exact Nat.div_lt_of_lt_mul (by rw [mul_comm]; exact hm2)

/-- Phase 2 fills exactly the cells `(t, j, k)` with `t` a loaded N-tile,
`j < PE_COLS`, `k < K`, with the dequantized weight of flattened index
`k * N + (t * PE_COLS + j)`, and leaves every other cell of `W_cache` alone. -/
theorem phase2_apply (wp sc : List ℕ) (K N : ℕ) (W0 : ℕ × ℕ × ℕ → ℤ) (t j k : ℕ) :
    phase2 wp sc K N W0 (t, j, k)
      = if t < N / PE_COLS ∧ j < PE_COLS ∧ k < K
        then deqAt wp sc N k (t * PE_COLS + j) else W0 (t, j, k) := by
  unfold phase2 phase2List
  split_ifs with h
  · obtain ⟨ht, hj, hk⟩ := h
    refine foldl_update_const_unique _ (fun ni : ℕ × ℕ => (ni.1, ni.2 / K, ni.2 % K))
      (fun ni : ℕ × ℕ => deqAt wp sc N (ni.2 % K) (ni.1 * PE_COLS + ni.2 / K)) W0 _ _
      ⟨(t, j * K + k), ?_, ?_⟩ ?_
    · refine mem_rangeProduct.mpr ⟨ht, ?_⟩
      calc j * K + k < j * K + K := Nat.add_lt_add_left hk _
        _ = (j + 1) * K := by ring
        _ ≤ PE_COLS * K := Nat.mul_le_mul_right _ hj
    · simp only [idx_div hk, idx_mod hk]
    · rintro ⟨m1, m2⟩ hmi hkey
      simp only [Prod.mk.injEq] at hkey
      obtain ⟨h1, h2, h3⟩ := hkey
      simp only [h1, h2, h3]
  · refine foldl_update_not_mem _ (fun ni : ℕ × ℕ => (ni.1, ni.2 / K, ni.2 % K)) _ W0 _ ?_
    rintro ⟨m1, m2⟩ hmi hkey
    rw [mem_rangeProduct] at hmi
    obtain ⟨hm1, hm2⟩ := hmi
    have hK : 0 < K := by
      by_contra hK0
      rw [Nat.eq_zero_of_not_pos hK0, Nat.mul_zero] at hm2
      exact Nat.not_lt_zero _ hm2
    simp only [Prod.mk.injEq] at hkey
    obtain ⟨h1, h2, h3⟩ := hkey
    refine h ⟨h1 ▸ hm1, ?_, h3 ▸ Nat.mod_lt _ hK⟩
    rw [← h2]
    exact Nat.div_lt_of_lt_mul (by rw [mul_comm]; exact hm2)

/-- The `A_work` copy fills the cells `(i, k)` with `i < PE_ROWS`, `k < K` from
the chosen M-tile of `A_cache`. -/
theorem copyAWork_apply (Ac : ℕ × ℕ × ℕ → ℤ) (m_tile K : ℕ) (A0 : ℕ × ℕ → ℤ) (i k : ℕ) :
    copyAWork Ac m_tile K A0 (i, k)
      = if i < PE_ROWS ∧ k < K then Ac (m_tile, i, k) else A0 (i, k) := by
  unfold copyAWork copyList
  split_ifs with h
  · refine foldl_update_const_unique _ (fun ki : ℕ × ℕ => (ki.2, ki.1))
      (fun ki : ℕ × ℕ => Ac (m_tile, ki.2, ki.1)) A0 _ _ ⟨(k, i), ?_, ?_⟩ ?_
    · exact mem_rangeProduct.mpr ⟨h.2, h.1⟩
    · rfl
    · rintro ⟨m1, m2⟩ hmi hkey
      simp only [Prod.mk.injEq] at hkey
      simp only [hkey.1, hkey.2]
  · refine foldl_update_not_mem _ (fun ki : ℕ × ℕ => (ki.2, ki.1)) _ A0 _ ?_
    rintro ⟨m1, m2⟩ hmi hkey
    rw [mem_rangeProduct] at hmi
    simp only [Prod.mk.injEq] at hkey
    exact h ⟨hkey.1 ▸ hmi.2, hkey.2 ▸ hmi.1⟩

/-- The `W_work` copy fills the cells `(j, k)` with `j < PE_COLS`, `k < K` from
the chosen N-tile of `W_cache`. -/
theorem copyWWork_apply (Wc : ℕ × ℕ × ℕ → ℤ) (n_tile K : ℕ) (W0 : ℕ × ℕ → ℤ) (j k : ℕ) :
    copyWWork Wc n_tile K W0 (j, k)
      = if j < PE_COLS ∧ k < K then Wc (n_tile, j, k) else W0 (j, k) := by
  unfold copyWWork copyList
  split_ifs with h
  · refine foldl_update_const_unique _ (fun ki : ℕ × ℕ => (ki.2, ki.1))
      (fun ki : ℕ × ℕ => Wc (n_tile, ki.2, ki.1)) W0 _ _ ⟨(k, j), ?_, ?_⟩ ?_
    · exact mem_rangeProduct.mpr ⟨h.2, h.1⟩
    · rfl
    · rintro ⟨m1, m2⟩ hmi hkey
      simp only [Prod.mk.injEq] at hkey
      simp only [hkey.1, hkey.2]
  · refine foldl_update_not_mem _ (fun ki : ℕ × ℕ => (ki.2, ki.1)) _ W0 _ ?_
    rintro ⟨m1, m2⟩ hmi hkey
    rw [mem_rangeProduct] at hmi
    simp only [Prod.mk.injEq] at hkey
    exact h ⟨hkey.1 ▸ hmi.2, hkey.2 ▸ hmi.1⟩

/-- `zeroC` clears exactly the `PE_ROWS × PE_COLS` accumulator cells. -/
theorem zeroC_apply (C0 : ℕ × ℕ → ℤ) (i j : ℕ) :
    zeroC C0 (i, j) = if i < PE_ROWS ∧ j < PE_COLS then 0 else C0 (i, j) := by
  unfold zeroC cellList
  split_ifs with h
  · refine foldl_update_const_unique _ (fun ij : ℕ × ℕ => ij) (fun _ => 0) C0 _ _
      ⟨(i, j), mem_rangeProduct.mpr h, rfl⟩ fun _ _ _ => rfl
  · refine foldl_update_not_mem _ (fun ij : ℕ × ℕ => ij) _ C0 _ ?_
    rintro ⟨m1, m2⟩ hmi hkey
    rw [mem_rangeProduct] at hmi
    simp only [Prod.mk.injEq] at hkey
    exact h ⟨hkey.1 ▸ hmi.1, hkey.2 ▸ hmi.2⟩

/-- On the accumulator grid, the `compute` loop realizes the ordered
`k`-reduction per cell. -/
theorem computeTile_apply (Aw Ww : ℕ × ℕ → ℤ) (K : ℕ) (C0 : ℕ × ℕ → ℤ) (i j : ℕ)
    (hi : i < PE_ROWS) (hj : j < PE_COLS) :
    computeTile Aw Ww K C0 (i, j)
      = (List.range K).foldl (fun s k => toInt32 (s + Aw (i, k) * Ww (j, k))) (C0 (i, j)) := by
  induction K with
  | zero => rfl
  | succ K ih =>
    have hmem : (i, j) ∈ cellList := by
      unfold cellList
      exact mem_rangeProduct.mpr ⟨hi, hj⟩
    have step : computeTile Aw Ww (K + 1) C0
        = cellList.foldl
            (fun C' ij => Function.update C' ij (toInt32 (C' ij + Aw (ij.1, K) * Ww (ij.2, K))))
            (computeTile Aw Ww K C0) := by
      show (List.range (K + 1)).foldl _ C0 = _
      rw [List.range_succ, List.foldl_append]
      simp only [List.foldl_cons, List.foldl_nil]
      rfl
    rw [step, foldl_update_self cellList (nodup_rangeProduct _ _)
      (fun ij c => toInt32 (c + Aw (ij.1, K) * Ww (ij.2, K))) _ (i, j), if_pos hmem, ih,
      List.range_succ, List.foldl_append]
    simp only [List.foldl_cons, List.foldl_nil]

/-- The value phase 3 stores for accumulator cell `(i, j)` of tile
`(m_tile, n_tile)`, expressed directly from the caches. -/
def cellVal (Ac Wc : ℕ × ℕ × ℕ → ℤ) (K m_tile n_tile i j : ℕ) : ℤ :=
  (List.range K).foldl (fun s k => toInt32 (s + Ac (m_tile, i, k) * Wc (n_tile, j, k))) 0

/-- Phase 3 equals a fold of pure stores: every store writes `cellVal`, a value
computed from the caches alone, so the work buffers drop out. -/
theorem phase3_result (st : SAState) (M K N : ℕ) (res0 : ℕ → ℤ) :
    (phase3 st M K N res0).2
      = (tileList M N).foldl
          (fun r mn => outList.foldl
            (fun r' idx => Function.update r' (outKey mn.1 mn.2 N idx)
              (cellVal st.A_cache st.W_cache K mn.1 mn.2 (idx / PE_COLS) (idx % PE_COLS))) r)
          res0 := by
  suffices h : ∀ (l : List (ℕ × ℕ)) (sr : SAState × (ℕ → ℤ)),
      sr.1.A_cache = st.A_cache → sr.1.W_cache = st.W_cache →
      (l.foldl (tileStep K N) sr).2
        = l.foldl
            (fun r mn => outList.foldl
              (fun r' idx => Function.update r' (outKey mn.1 mn.2 N idx)
                (cellVal st.A_cache st.W_cache K mn.1 mn.2 (idx / PE_COLS) (idx % PE_COLS))) r)
            sr.2 by
    exact h _ (st, res0) rfl rfl
  intro l
  induction l with
  | nil =>
    intro sr _ _
    rfl
  | cons mn t ih =>
    intro sr hA hW
    simp only [List.foldl_cons]
    have hstep : (tileStep K N sr mn).2
        = outList.foldl
            (fun r' idx => Function.update r' (outKey mn.1 mn.2 N idx)
              (cellVal st.A_cache st.W_cache K mn.1 mn.2 (idx / PE_COLS) (idx % PE_COLS)))
            sr.2 := by
      show writeOutput
          (computeTile (copyAWork sr.1.A_cache mn.1 K sr.1.A_work)
            (copyWWork sr.1.W_cache mn.2 K sr.1.W_work) K (zeroC sr.1.C_work)) mn.1 mn.2 N sr.2
        = _
      unfold writeOutput
      refine List.foldl_ext _ _ sr.2 ?_
      intro acc idx hidx
      have hidx' : idx < PE_ROWS * PE_COLS := by
        unfold outList at hidx
        exact List.mem_range.mp hidx
      have hi : idx / PE_COLS < PE_ROWS :=
        Nat.div_lt_of_lt_mul (by rw [mul_comm]; exact hidx')
      have hj : idx % PE_COLS < PE_COLS := Nat.mod_lt _ (by decide)
      refine congrArg (Function.update acc (outKey mn.1 mn.2 N idx)) ?_
      rw [computeTile_apply _ _ _ _ _ _ hi hj, zeroC_apply, if_pos ⟨hi, hj⟩]
      unfold cellVal
      refine List.foldl_ext _ _ 0 ?_
      intro acc2 k hk
      have hk' : k < K := List.mem_range.mp hk
      rw [copyAWork_apply, if_pos ⟨hi, hk'⟩, copyWWork_apply, if_pos ⟨hj, hk'⟩, hA, hW]
    rw [ih (tileStep K N sr mn) hA hW, hstep]

/-- Any output index `m * N + n` inside the tiled region receives the ordered
`k`-reduction of the cached activation row and dequantized weight column:
exactly `refElem`, the reference model's element computation. -/
theorem kernel_result_written (act : List ℤ) (wp sc : List ℕ) (M K N : ℕ)
    (st : SAState) (res0 : ℕ → ℤ) (m n : ℕ)
    (hm : m < M / PE_ROWS * PE_ROWS) (hn : n < N / PE_COLS * PE_COLS) :
    (SystolicArrayKernel act wp sc M K N st res0).2 (m * N + n)
      = refElem act wp sc K N m n := by
  unfold SystolicArrayKernel
  rw [phase3_result]
  rw [foldl_foldl_flatMap (tileList M N) (fun _ => outList)
    (fun mn r' idx => Function.update r' (outKey mn.1 mn.2 N idx)
      (cellVal (phase1 act M K st.A_cache) (phase2 wp sc K N st.W_cache)
        K mn.1 mn.2 (idx / PE_COLS) (idx % PE_COLS))) res0]
  have hmt : m / PE_ROWS < M / PE_ROWS :=
    Nat.div_lt_of_lt_mul (by rw [mul_comm]; exact hm)
  have hnt : n / PE_COLS < N / PE_COLS :=
    Nat.div_lt_of_lt_mul (by rw [mul_comm]; exact hn)
  have hmr : m % PE_ROWS < PE_ROWS := Nat.mod_lt _ (by decide)
  have hnr : n % PE_COLS < PE_COLS := Nat.mod_lt _ (by decide)
  refine foldl_update_const_unique _
    (fun p : (ℕ × ℕ) × ℕ => outKey p.1.1 p.1.2 N p.2)
    (fun p : (ℕ × ℕ) × ℕ =>
      cellVal (phase1 act M K st.A_cache) (phase2 wp sc K N st.W_cache)
        K p.1.1 p.1.2 (p.2 / PE_COLS) (p.2 % PE_COLS)) res0 _ _
    ⟨((m / PE_ROWS, n / PE_COLS), m % PE_ROWS * PE_COLS + n % PE_COLS), ?_, ?_⟩ ?_
  · rw [List.mem_flatMap]
    refine ⟨(m / PE_ROWS, n / PE_COLS), ?_, ?_⟩
    · unfold tileList
      exact mem_rangeProduct.mpr ⟨hmt, hnt⟩
    · rw [List.mem_map]
      refine ⟨m % PE_ROWS * PE_COLS + n % PE_COLS, ?_, rfl⟩
      unfold outList
      rw [List.mem_range]
      calc m % PE_ROWS * PE_COLS + n % PE_COLS
          < m % PE_ROWS * PE_COLS + PE_COLS := Nat.add_lt_add_left hnr _
        _ = (m % PE_ROWS + 1) * PE_COLS := by ring
        _ ≤ PE_ROWS * PE_COLS := Nat.mul_le_mul_right _ hmr
  · show outKey (m / PE_ROWS) (n / PE_COLS) N (m % PE_ROWS * PE_COLS + n % PE_COLS) = m * N + n
    unfold outKey
    rw [idx_div hnr, idx_mod hnr]
    rw [Nat.mul_comm (m / PE_ROWS) PE_ROWS, Nat.div_add_mod,
      Nat.mul_comm (n / PE_COLS) PE_COLS, Nat.div_add_mod]
  · rintro ⟨⟨mt, nt⟩, idx⟩ hp hkey
    rw [List.mem_flatMap] at hp
    obtain ⟨mn', hmn', hpair⟩ := hp
    rw [List.mem_map] at hpair
    obtain ⟨idx', hidx', heq⟩ := hpair
    injection heq with he1 he2
    subst he1
    subst he2
    unfold tileList at hmn'
    rw [mem_rangeProduct] at hmn'
    obtain ⟨hmt', hnt'⟩ := hmn'
    unfold outList at hidx'
    rw [List.mem_range] at hidx'
    have hio : idx' / PE_COLS < PE_ROWS :=
      Nat.div_lt_of_lt_mul (by rw [mul_comm]; exact hidx')
    have hjo : idx' % PE_COLS < PE_COLS := Nat.mod_lt _ (by decide)
    have hb : nt * PE_COLS + idx' % PE_COLS < N := by
      calc nt * PE_COLS + idx' % PE_COLS < nt * PE_COLS + PE_COLS := Nat.add_lt_add_left hjo _
        _ = (nt + 1) * PE_COLS := by ring
        _ ≤ N / PE_COLS * PE_COLS := Nat.mul_le_mul_right _ hnt'
        _ ≤ N := Nat.div_mul_le_self _ _
    have hd : n < N := lt_of_lt_of_le hn (Nat.div_mul_le_self _ _)
    unfold outKey at hkey
    have hsplit := flatIndex_inj hb hd hkey
    unfold cellVal refElem
    refine List.foldl_ext _ _ 0 ?_
    intro acc k hk
    have hk' : k < K := List.mem_range.mp hk
    rw [phase1_apply, if_pos ⟨hmt', hio, hk'⟩, phase2_apply, if_pos ⟨hnt', hjo, hk'⟩,
      hsplit.1, hsplit.2]

/-- Output rows at or beyond the last complete M-tile are never written:
the kernel leaves the result buffer unchanged there. -/
theorem kernel_result_tail_rows (act : List ℤ) (wp sc : List ℕ) (M K N : ℕ)
    (st : SAState) (res0 : ℕ → ℤ) (m n : ℕ)
    (hm : M / PE_ROWS * PE_ROWS ≤ m) (hn : n < N) :
    (SystolicArrayKernel act wp sc M K N st res0).2 (m * N + n) = res0 (m * N + n) := by
  unfold SystolicArrayKernel
  rw [phase3_result]
  rw [foldl_foldl_flatMap (tileList M N) (fun _ => outList)
    (fun mn r' idx => Function.update r' (outKey mn.1 mn.2 N idx)
      (cellVal (phase1 act M K st.A_cache) (phase2 wp sc K N st.W_cache)
        K mn.1 mn.2 (idx / PE_COLS) (idx % PE_COLS))) res0]
  refine foldl_update_not_mem _
    (fun p : (ℕ × ℕ) × ℕ => outKey p.1.1 p.1.2 N p.2) _ res0 _ ?_
  rintro ⟨⟨mt, nt⟩, idx⟩ hp hkey
  rw [List.mem_flatMap] at hp
  obtain ⟨mn', hmn', hpair⟩ := hp
  rw [List.mem_map] at hpair
  obtain ⟨idx', hidx', heq⟩ := hpair
  injection heq with he1 he2
  subst he1
  subst he2
  unfold tileList at hmn'
  rw [mem_rangeProduct] at hmn'
  obtain ⟨hmt', hnt'⟩ := hmn'
  unfold outList at hidx'
  rw [List.mem_range] at hidx'
  have hio : idx' / PE_COLS < PE_ROWS :=
    Nat.div_lt_of_lt_mul (by rw [mul_comm]; exact hidx')
  have hjo : idx' % PE_COLS < PE_COLS := Nat.mod_lt _ (by decide)
  have hb : nt * PE_COLS + idx' % PE_COLS < N := by
    calc nt * PE_COLS + idx' % PE_COLS < nt * PE_COLS + PE_COLS := Nat.add_lt_add_left hjo _
      _ = (nt + 1) * PE_COLS := by ring
      _ ≤ N / PE_COLS * PE_COLS := Nat.mul_le_mul_right _ hnt'
      _ ≤ N := Nat.div_mul_le_self _ _
  unfold outKey at hkey
  have hsplit := flatIndex_inj hb hn hkey
  have hlt : mt * PE_ROWS + idx' / PE_COLS < M / PE_ROWS * PE_ROWS := by
    calc mt * PE_ROWS + idx' / PE_COLS < mt * PE_ROWS + PE_ROWS := Nat.add_lt_add_left hio _
      _ = (mt + 1) * PE_ROWS := by ring
      _ ≤ M / PE_ROWS * PE_ROWS := Nat.mul_le_mul_right _ hmt'
  rw [hsplit.1] at hlt
  exact absurd hlt (not_lt.mpr hm)

/-- The reference model writes `refElem` at every in-range flat output index. -/
theorem cpu_reference_apply (act : List ℤ) (wp sc : List ℕ) (M K N m n : ℕ)
    (hm : m < M) (hn : n < N) :
    cpu_reference act wp sc M K N (m * N + n) = refElem act wp sc K N m n := by
  unfold cpu_reference
  refine foldl_update_const_unique _ (fun mn : ℕ × ℕ => mn.1 * N + mn.2)
    (fun mn : ℕ × ℕ => refElem act wp sc K N mn.1 mn.2) _ _ _
    ⟨(m, n), mem_rangeProduct.mpr ⟨hm, hn⟩, rfl⟩ ?_
  rintro ⟨a, b⟩ hab hkey
  rw [mem_rangeProduct] at hab
  have hsplit := flatIndex_inj hab.2 hn hkey
  simp only [] at hsplit ⊢
  rw [hsplit.1, hsplit.2]

/-! ### Ranges of the wrapped conversions and the no-overflow lemma -/

theorem toInt8_bounds (x : ℤ) : -128 ≤ toInt8 x ∧ toInt8 x ≤ 127 := by
  unfold toInt8
  have h1 : 0 ≤ (x + 128) % 256 := Int.emod_nonneg _ (by norm_num)
  have h2 : (x + 128) % 256 < 256 := Int.emod_lt_of_pos _ (by norm_num)
  omega

theorem toInt8_eq_of_bounds {x : ℤ} (h1 : -128 ≤ x) (h2 : x ≤ 127) : toInt8 x = x := by
  unfold toInt8
  rw [Int.emod_eq_of_lt (by omega) (by omega)]
  omega

theorem toInt32_eq_of_bounds {x : ℤ} (h : |x| < 2 ^ 31) : toInt32 x = x := by
  unfold toInt32
  rw [abs_lt] at h
  rw [Int.emod_eq_of_lt (by omega) (by omega)]
  omega

/-- The dequantization primitive returns an `int8_t`: its value always lies in
`[-128, 127]`. -/
theorem unpack_bounds (b : ℕ) (u : Bool) (s : ℕ) :
    -128 ≤ unpack_dequantize_weight b u s ∧ unpack_dequantize_weight b u s ≤ 127 := by
  unfold unpack_dequantize_weight
  exact toInt8_bounds _

theorem getD_int8_bounds {act : List ℤ} (h : ∀ a ∈ act, -128 ≤ a ∧ a ≤ 127) (i : ℕ) :
    -128 ≤ act.getD i 0 ∧ act.getD i 0 ≤ 127 := by
  by_cases hi : i < act.length
  · rw [List.getD_eq_getElem _ _ hi]
    exact h _ (List.getElem_mem hi)
  · rw [List.getD_eq_default _ _ (le_of_not_lt hi)]
    norm_num

/-- The running `int32_t` accumulator never wraps when every summand is at
most `16384 = 128 * 128` in magnitude and there are at most 4096 of them:
the wrapped fold equals the exact integer sum. -/
theorem foldl_toInt32_eq_sum (t : ℕ → ℤ) (K : ℕ) (hK : K ≤ 4096)
    (ht : ∀ k, k < K → |t k| ≤ 16384) :
    (List.range K).foldl (fun s k => toInt32 (s + t k)) 0 = ∑ k ∈ Finset.range K, t k := by
  induction K with
  | zero => simp
  | succ K ih =>
    rw [List.range_succ, List.foldl_append]
    simp only [List.foldl_cons, List.foldl_nil]
    rw [ih (le_trans (Nat.le_succ K) hK) fun k hk => ht k (Nat.lt_succ_of_lt hk),
      Finset.sum_range_succ]
    have hsum : |∑ k ∈ Finset.range K, t k| ≤ (K : ℤ) * 16384 := by
      calc |∑ k ∈ Finset.range K, t k| ≤ ∑ k ∈ Finset.range K, |t k| :=
            Finset.abs_sum_le_sum_abs _ _
        _ ≤ ∑ _k ∈ Finset.range K, (16384 : ℤ) :=
            Finset.sum_le_sum fun k hk => ht k (Nat.lt_succ_of_lt (Finset.mem_range.mp hk))
        _ = (K : ℤ) * 16384 := by
            rw [Finset.sum_const, Finset.card_range]
            simp [mul_comm]
    apply toInt32_eq_of_bounds
    have htK : |t K| ≤ 16384 := ht K (Nat.lt_succ_self K)
    have hKz : (K : ℤ) ≤ 4095 := by exact_mod_cast Nat.lt_succ_iff.mp hK
    calc |∑ k ∈ Finset.range K, t k + t K| ≤ |∑ k ∈ Finset.range K, t k| + |t K| :=
          abs_add _ _
      _ ≤ (K : ℤ) * 16384 + 16384 := add_le_add hsum htK
      _ ≤ 4095 * 16384 + 16384 := by
          have := mul_le_mul_of_nonneg_right hKz (by norm_num : (0 : ℤ) ≤ 16384)
          omega
      _ < 2 ^ 31 := by norm_num

/-- With int8 activations and `K ≤ 4096`, the reference element computation is
the exact integer dot product: no intermediate accumulation wraps. -/
theorem refElem_eq_sum (act : List ℤ) (wp sc : List ℕ) (K N m n : ℕ) (hK : K ≤ 4096)
    (hact : ∀ a ∈ act, -128 ≤ a ∧ a ≤ 127) :
    refElem act wp sc K N m n
      = ∑ k ∈ Finset.range K, act.getD (m * K + k) 0 * deqAt wp sc N k n := by
  unfold refElem
  refine foldl_toInt32_eq_sum _ K hK ?_
  intro k hk
  have ha := getD_int8_bounds hact (m * K + k)
  have hw : -128 ≤ deqAt wp sc N k n ∧ deqAt wp sc N k n ≤ 127 := by
    unfold deqAt
    exact unpack_bounds _ _ _
  rw [abs_mul]
  have h1 : |act.getD (m * K + k) 0| ≤ 128 := abs_le.mpr ⟨by omega, by omega⟩
  have h2 : |deqAt wp sc N k n| ≤ 128 := abs_le.mpr ⟨by omega, by omega⟩
  calc |act.getD (m * K + k) 0| * |deqAt wp sc N k n| ≤ 128 * 128 :=
        mul_le_mul h1 h2 (abs_nonneg _) (by norm_num)
    _ = 16384 := by norm_num

/-! ### Access lemmas for the quantizer output -/

theorem getD_map_range {β : Type _} {n g : ℕ} (f : ℕ → β) (d : β) (hg : g < n) :
    ((List.range n).map f).getD g d = f g := by
  have hlen : g < ((List.range n).map f).length := by
    rw [List.length_map, List.length_range]
    exact hg
  rw [List.getD_eq_getElem _ _ hlen]
  simp

/-- The scale buffer produced by the codec holds, per group, the derived shift. -/
theorem quantize_snd_getD (ws : List ℚ) (K N g : ℕ) (hg : g < K * N / GROUP_SIZE) :
    (quantize_mxint4 ws K N).2.getD g 0 = groupShift (groupMaxAbs ws (g * GROUP_SIZE)) := by
  unfold quantize_mxint4
  exact getD_map_range _ _ hg

/-- The packed buffer produced by the codec: byte `p` packs the quantized
elements `2p` and `2p+1` against the shift of group `p / 8`. -/
theorem quantize_fst_getD (ws : List ℚ) (K N p : ℕ) (hp : p < K * N / 2) :
    (quantize_mxint4 ws K N).1.getD p 0
      = if p / 8 < K * N / GROUP_SIZE then
          nibbleOf (quantWeight (ws.getD (2 * p) 0)
              (groupShift (groupMaxAbs ws (p / 8 * GROUP_SIZE)))) +
            16 * nibbleOf (quantWeight (ws.getD (2 * p + 1) 0)
              (groupShift (groupMaxAbs ws (p / 8 * GROUP_SIZE))))
        else 0 := by
  unfold quantize_mxint4
  exact getD_map_range _ _ hp

/-- A quantized weight is clamped into the signed 4-bit range. -/
theorem quantWeight_bounds (w : ℚ) (s : ℕ) :
    -8 ≤ quantWeight w s ∧ quantWeight w s ≤ 7 := by
  unfold quantWeight clampI
  constructor
  · exact le_max_left _ _
  · exact max_le (by norm_num) (min_le_left _ _)

/-- Sign extension of the low nibble recovers any value of `[-8, 7]`. -/
theorem nibble_roundtrip {q : ℤ} (h1 : -8 ≤ q) (h2 : q ≤ 7) :
    (if 8 ≤ nibbleOf q then (nibbleOf q : ℤ) - 16 else (nibbleOf q : ℤ)) = q := by
  unfold nibbleOf
  interval_cases q <;> decide

theorem nibbleOf_lt (q : ℤ) : nibbleOf q < 16 := by
  unfold nibbleOf
  have h1 : 0 ≤ q % 16 := Int.emod_nonneg _ (by norm_num)
  have h2 : q % 16 < 16 := Int.emod_lt_of_pos _ (by norm_num)
  omega

/-- Unpacking the low nibble of a packed byte. -/
theorem unpack_low (n0 n1 s : ℕ) (hn0 : n0 < 16) :
    unpack_dequantize_weight (n0 + 16 * n1) false s
      = toInt8 ((if 8 ≤ n0 then (n0 : ℤ) - 16 else (n0 : ℤ)) * 2 ^ (s % 4 * 2)) := by
  unfold unpack_dequantize_weight
  rw [show (n0 + 16 * n1) % 16 = n0 from by omega]
  simp

/-- Unpacking the high nibble of a packed byte. -/
theorem unpack_high (n0 n1 s : ℕ) (hn0 : n0 < 16) (hn1 : n1 < 16) :
    unpack_dequantize_weight (n0 + 16 * n1) true s
      = toInt8 ((if 8 ≤ n1 then (n1 : ℤ) - 16 else (n1 : ℤ)) * 2 ^ (s % 4 * 2)) := by
  unfold unpack_dequantize_weight
  rw [show (n0 + 16 * n1) / 16 % 16 = n1 from by omega]
  simp

/-- The derived shift is at most 3. -/
theorem groupShift_le (q : ℚ) : groupShift q ≤ 3 := by
  unfold groupShift
  split_ifs with h
  · have h1 : min 3 (Int.log 2 q - 3) ≤ 3 := min_le_left _ _
    omega
  · omega

/-- `std::round` is within a half of its argument. -/
theorem cround_abs_sub (q : ℚ) : |(cround q : ℚ) - q| ≤ 1 / 2 := by
  unfold cround
  split_ifs with h
  · rw [abs_sub_comm]
    exact abs_sub_round q
  · push_cast
    rw [show -(round (-q) : ℚ) - q = -((round (-q) : ℚ) - -q) from by ring, abs_neg,
      abs_sub_comm]
    exact abs_sub_round (-q)

/-- Factoring a scaled rounding error. -/
theorem scaled_err {c w : ℚ} {v : ℤ} (hc : 0 < c) (h : |(v : ℚ) - w / c| ≤ 1 / 2) :
    |(v : ℚ) * c - w| ≤ c / 2 := by
  have hfac : (v : ℚ) * c - w = c * ((v : ℚ) - w / c) := by
    field_simp
  rw [hfac, abs_mul, abs_of_pos hc]
  calc c * |(v : ℚ) - w / c| ≤ c * (1 / 2) := mul_le_mul_of_nonneg_left h (le_of_lt hc)
    _ = c / 2 := by ring

/-- Round trip of one weight: quantize the whole array, then dequantize element
`idx` from the packed byte and group scale.  When the rounded scaled value
neither saturates the 4-bit range nor overflows `int8_t` after shifting, the
reconstruction error is at most half the scale step. -/
theorem roundtrip_bound (ws : List ℚ) (K N idx : ℕ)
    (hidx : idx < K * N) (hdvd : GROUP_SIZE ∣ K * N)
    (s : ℕ) (hs : s = groupShift (groupMaxAbs ws (idx / GROUP_SIZE * GROUP_SIZE)))
    (v : ℤ) (hv : v = cround (ws.getD idx 0 / 2 ^ (s * 2)))
    (hv1 : -8 ≤ v) (hv2 : v ≤ 7)
    (hfit1 : -128 ≤ v * 2 ^ (s * 2)) (hfit2 : v * 2 ^ (s * 2) ≤ 127) :
    |(unpack_dequantize_weight ((quantize_mxint4 ws K N).1.getD (idx / 2) 0)
        (idx % 2 == 1) ((quantize_mxint4 ws K N).2.getD (idx / GROUP_SIZE) 0) : ℚ)
      - ws.getD idx 0| ≤ 2 ^ (s * 2) / 2 := by
  have h2dvd : 2 ∣ K * N := dvd_trans (by decide) hdvd
  have hp : idx / 2 < K * N / 2 := Nat.div_lt_div_of_lt_of_dvd h2dvd hidx
  have hgrp : idx / GROUP_SIZE < K * N / GROUP_SIZE := Nat.div_lt_div_of_lt_of_dvd hdvd hidx
  have hdd : idx / 2 / 8 = idx / GROUP_SIZE := by
    rw [Nat.div_div_eq_div_mul]
    rfl
  have hsc : (quantize_mxint4 ws K N).2.getD (idx / GROUP_SIZE) 0 = s := by
    rw [quantize_snd_getD _ _ _ _ hgrp, hs]
  have hs3 : s ≤ 3 := by
    rw [hs]
    exact groupShift_le _
  have hsm : s % 4 = s := Nat.mod_eq_of_lt (by omega)
  have hbyte := quantize_fst_getD ws K N (idx / 2) hp
  rw [hdd, if_pos hgrp] at hbyte
  set q0 := quantWeight (ws.getD (2 * (idx / 2)) 0)
    (groupShift (groupMaxAbs ws (idx / GROUP_SIZE * GROUP_SIZE))) with hq0
  set q1 := quantWeight (ws.getD (2 * (idx / 2) + 1) 0)
    (groupShift (groupMaxAbs ws (idx / GROUP_SIZE * GROUP_SIZE))) with hq1
  have hvq : ∀ w : ℚ, cround (w / 2 ^ (s * 2)) = v → quantWeight w s = v := by
    intro w hw
    unfold quantWeight clampI
    rw [hw, toInt8_eq_of_bounds (by omega) (by omega)]
    omega
  have hcpos : (0 : ℚ) < 2 ^ (s * 2) := by positivity
  have herr : |(v : ℚ) - ws.getD idx 0 / 2 ^ (s * 2)| ≤ 1 / 2 := by
    rw [hv]
    have := cround_abs_sub (ws.getD idx 0 / 2 ^ (s * 2))
    exact this
  rcases Nat.even_or_odd idx with he | ho
  · have he2 : idx % 2 = 0 := Nat.even_iff.mp he
    have hei : 2 * (idx / 2) = idx := by omega
    have hfl : (idx % 2 == 1) = false := by
      rw [he2]
      rfl
    rw [hbyte, hfl, hsc, unpack_low _ _ _ (nibbleOf_lt q0), hsm]
    have hq0v : q0 = v := by
      rw [hq0, ← hs]
      exact hvq _ (by rw [hei, ← hv])
    rw [nibble_roundtrip (by rw [hq0v]; exact hv1) (by rw [hq0v]; exact hv2), hq0v,
      toInt8_eq_of_bounds hfit1 hfit2]
    push_cast
    exact scaled_err hcpos herr
  · have ho2 : idx % 2 = 1 := Nat.odd_iff.mp ho
    have hoi : 2 * (idx / 2) + 1 = idx := by omega
    have hfl : (idx % 2 == 1) = true := by
      rw [ho2]
      rfl
    rw [hbyte, hfl, hsc, unpack_high _ _ _ (nibbleOf_lt q0) (nibbleOf_lt q1), hsm]
    have hq1v : q1 = v := by
      rw [hq1, ← hs]
      exact hvq _ (by rw [hoi, ← hv])
    rw [nibble_roundtrip (by rw [hq1v]; exact hv1) (by rw [hq1v]; exact hv2), hq1v,
      toInt8_eq_of_bounds hfit1 hfit2]
    push_cast
    exact scaled_err hcpos herr

/-! ### Zero groups -/

theorem le_foldl_max (l : List ℕ) (f : ℕ → ℚ) (m : ℚ) :
    m ≤ l.foldl (fun acc i => max acc (f i)) m := by
  induction l generalizing m with
  | nil => exact le_refl m
  | cons a t ih => exact le_trans (le_max_left m (f a)) (ih (max m (f a)))

theorem groupMaxAbs_nonneg (ws : List ℚ) (base : ℕ) : 0 ≤ groupMaxAbs ws base :=
  le_foldl_max _ _ 0

theorem foldl_max_zero (l : List ℕ) (f : ℕ → ℚ) (h : ∀ i ∈ l, f i = 0) :
    l.foldl (fun acc i => max acc (f i)) 0 = 0 := by
  induction l with
  | nil => rfl
  | cons a t ih =>
    simp only [List.foldl_cons]
    rw [h a (List.mem_cons_self a t), max_self]
    exact ih fun i hi => h i (List.mem_cons_of_mem _ hi)

/-- A group of zeros has zero max magnitude. -/
theorem groupMaxAbs_of_zeros (ws : List ℚ) (base : ℕ)
    (h : ∀ i, i < GROUP_SIZE → ws.getD (base + i) 0 = 0) : groupMaxAbs ws base = 0 := by
  unfold groupMaxAbs
  refine foldl_max_zero _ _ ?_
  intro i hi
  rw [h i (List.mem_range.mp hi), abs_zero]

/-- Quantizing a zero weight yields the zero nibble whatever the shift. -/
theorem quantWeight_zero (s : ℕ) : quantWeight 0 s = 0 := by
  unfold quantWeight cround
  rw [zero_div, if_pos (le_refl 0), round_zero]
  decide

/-! ### Spec-side values

These definitions transcribe the wording of the specification, to be compared
against the source-derived definitions above. -/

/-- The signed two's-complement value of the selected 4-bit nibble, as the
claims word it: low nibble when the flag is false, high nibble when true. -/
def specNibbleVal (packed_byte : ℕ) (is_upper : Bool) : ℤ :=
  let nib : ℕ := if is_upper then packed_byte / 16 % 16 else packed_byte % 16
  if 8 ≤ nib then (nib : ℤ) - 16 else (nib : ℤ)

/-- The exact signed integer weight the spec says the dequantization primitive
returns: `v * 2 ^ (2 * (scale mod 4))` with `v` the signed nibble value. -/
def specDequantVal (packed_byte : ℕ) (is_upper : Bool) (scale_factor : ℕ) : ℤ :=
  specNibbleVal packed_byte is_upper * 2 ^ (scale_factor % 4 * 2)

/-- The quantized, clamped-to-`[-8, 7]` value of a weight as the spec words the
codec (divide by the scale step, round to nearest, clamp) — with no
intermediate `int8_t` conversion. -/
def specQuantVal (w : ℚ) (shift : ℕ) : ℤ := clampI (-8) 7 (cround (w / 2 ^ (shift * 2)))

/-- Only the low two bits of the scale byte reach the shifter. -/
theorem unpack_scale_mod (b : ℕ) (u : Bool) (s : ℕ) :
    unpack_dequantize_weight b u s = unpack_dequantize_weight b u (s % 4) := by
  unfold unpack_dequantize_weight
  rw [Nat.mod_mod_of_dvd _ (dvd_refl 4)]

theorem specDequantVal_scale_mod (b : ℕ) (u : Bool) (s : ℕ) :
    specDequantVal b u s = specDequantVal b u (s % 4) := by
  unfold specDequantVal
  rw [Nat.mod_mod_of_dvd _ (dvd_refl 4)]

/-- Exhaustive check over all bytes, both flags and all effective scales: the
primitive returns the `int8_t` truncation of the spec value. -/
theorem unpack_eq_toInt8_spec_small :
    ∀ b < 256, ∀ s < 4, ∀ u : Bool,
      unpack_dequantize_weight b u s = toInt8 (specDequantVal b u s) := by decide

/-! ### Concrete inputs used in counterexamples and witnesses -/

/-- One quantization group whose max magnitude 12 forces shift 0 but saturates
the 4-bit range. -/
def wsSat : List ℚ := 12 :: List.replicate 15 0

/-- One quantization group whose leading element rounds to 156 after scaling,
overflowing `int8_t` before the clamp. -/
def wsBig : List ℚ := 10000 :: List.replicate 15 0

/-- All-ones activations for a 24-row call (M = 24 is not tile-divisible). -/
def actOnes : List ℤ := List.replicate 48 1

/-- Packed weight bytes `0x11`: both nibbles decode to weight 1. -/
def wgtOnes : List ℕ := List.replicate 16 17

/-- All-zero scale bytes. -/
def scZeros : List ℕ := List.replicate 2 0

/-- A zeroed static state. -/
def zeroState : SAState :=
  ⟨fun _ => 0, fun _ => 0, fun _ => 0, fun _ => 0, fun _ => 0⟩

/-- A static state with every cell holding 1, used to vary the initial statics. -/
def oneState : SAState :=
  ⟨fun _ => 1, fun _ => 1, fun _ => 1, fun _ => 1, fun _ => 1⟩

theorem wsSat_maxAbs : groupMaxAbs wsSat 0 = 12 := by decide

theorem wsSat_shift : groupShift (groupMaxAbs wsSat 0) = 0 := by
  rw [wsSat_maxAbs, groupShift_eval]
  norm_num

theorem wsBig_maxAbs : groupMaxAbs wsBig 0 = 10000 := by decide

theorem wsBig_shift : groupShift (groupMaxAbs wsBig 0) = 3 := by
  rw [wsBig_maxAbs, groupShift_eval]
  norm_num

theorem quantWeight_sat : quantWeight 12 0 = 7 := by
  unfold quantWeight
  rw [show (12 : ℚ) / 2 ^ (0 * 2) = 12 by norm_num]
  rw [show cround 12 = 12 by unfold cround; rw [if_pos (by norm_num), round_eq]; norm_num]
  decide

theorem quantWeight_big : quantWeight 10000 3 = -8 := by
  unfold quantWeight
  rw [show (10000 : ℚ) / 2 ^ (3 * 2) = 625 / 4 by norm_num]
  rw [show cround (625 / 4) = 156 by
    unfold cround; rw [if_pos (by norm_num), round_eq]; norm_num]
  decide

theorem specQuantVal_sat : specQuantVal 12 0 = 7 := by
  unfold specQuantVal
  rw [show (12 : ℚ) / 2 ^ (0 * 2) = 12 by norm_num]
  rw [show cround 12 = 12 by unfold cround; rw [if_pos (by norm_num), round_eq]; norm_num]
  decide

theorem specQuantVal_big : specQuantVal 10000 3 = 7 := by
  unfold specQuantVal
  rw [show (10000 : ℚ) / 2 ^ (3 * 2) = 625 / 4 by norm_num]
  rw [show cround (625 / 4) = 156 by
    unfold cround; rw [if_pos (by norm_num), round_eq]; norm_num]
  decide

/-- The packed byte the codec emits for the saturating group. -/
theorem wsSat_byte : (quantize_mxint4 wsSat 1 16).1.getD 0 0 = 7 := by
  rw [quantize_fst_getD wsSat 1 16 0 (by decide)]
  rw [if_pos (by decide)]
  rw [show (0 : ℕ) / 8 * GROUP_SIZE = 0 from rfl]
  rw [show wsSat.getD (2 * 0) 0 = 12 from rfl, show wsSat.getD (2 * 0 + 1) 0 = 0 from rfl]
  rw [wsSat_shift, quantWeight_sat, quantWeight_zero]
  decide

/-- The scale byte the codec emits for the saturating group. -/
theorem wsSat_scale : (quantize_mxint4 wsSat 1 16).2.getD 0 0 = 0 := by
  rw [quantize_snd_getD wsSat 1 16 0 (by decide)]
  rw [show (0 : ℕ) * GROUP_SIZE = 0 from rfl]
  exact wsSat_shift

/-- The packed byte the codec emits for the overflowing group: the int8 wrap
turns 156 into -100, the clamp then picks -8, nibble 8. -/
theorem wsBig_byte : (quantize_mxint4 wsBig 1 16).1.getD 0 0 = 8 := by
  rw [quantize_fst_getD wsBig 1 16 0 (by decide)]
  rw [if_pos (by decide)]
  rw [show (0 : ℕ) / 8 * GROUP_SIZE = 0 from rfl]
  rw [show wsBig.getD (2 * 0) 0 = 10000 from rfl, show wsBig.getD (2 * 0 + 1) 0 = 0 from rfl]
  rw [wsBig_shift, quantWeight_big, quantWeight_zero]
  decide

theorem wsBig_scale : (quantize_mxint4 wsBig 1 16).2.getD 0 0 = 3 := by
  rw [quantize_snd_getD wsBig 1 16 0 (by decide)]
  rw [show (0 : ℕ) * GROUP_SIZE = 0 from rfl]
  exact wsBig_shift

theorem specQuantVal_zero (s : ℕ) : specQuantVal 0 s = 0 := by
  unfold specQuantVal cround
  rw [zero_div, if_pos (le_refl 0), round_zero]
  decide

theorem quantWeight_eq_spec {w : ℚ} {s : ℕ} (h1 : -128 ≤ cround (w / 2 ^ (s * 2)))
    (h2 : cround (w / 2 ^ (s * 2)) ≤ 127) :
    quantWeight w s = specQuantVal w s := by
  unfold quantWeight specQuantVal
  rw [toInt8_eq_of_bounds h1 h2]

/-- Weights used by several witnesses: one group of sixteen ones. -/
def wsOnes : List ℚ := List.replicate 16 1

/-- Weights of one all-zero group. -/
def wsZeros : List ℚ := List.replicate 16 0

theorem wsOnes_maxAbs : groupMaxAbs wsOnes 0 = 1 := by decide

theorem wsOnes_scale : (quantize_mxint4 wsOnes 1 16).2.getD 0 0 = 0 := by
  rw [quantize_snd_getD wsOnes 1 16 0 (by decide)]
  rw [show (0 : ℕ) * GROUP_SIZE = 0 from rfl, wsOnes_maxAbs, groupShift_eval]
  norm_num

theorem cround_one : cround 1 = 1 := by
  unfold cround
  rw [if_pos (by norm_num), round_eq]
  norm_num

/-! ## Claim theorems -/

/-- C2, counterexample: for packed byte 7 (low nibble value 7) and scale 3 the
primitive returns the `int8_t`-wrapped value -64, not the exact weight
`7 * 2^6 = 448` the claim asserts. -/
theorem C2_counterexample :
    unpack_dequantize_weight 7 false 3 = -64 ∧ specDequantVal 7 false 3 = 448 ∧
      unpack_dequantize_weight 7 false 3 ≠ specDequantVal 7 false 3 := by decide

/-- C2, amended: for every packed byte, nibble flag and scale byte the
primitive returns the two's-complement `int8_t` truncation of
`v * 2^(2*(scale mod 4))`, and it returns that exact value whenever the value
lies within `[-128, 127]`. -/
theorem C2_dequantize_truncated (b s b' s' : ℕ) (u u' : Bool)
    (hb : b < 256) (hs : s < 256) (hb' : b' < 256) (hs' : s' < 256)
    (hfit1 : -128 ≤ specDequantVal b' u' s') (hfit2 : specDequantVal b' u' s' ≤ 127) :
    unpack_dequantize_weight b u s = toInt8 (specDequantVal b u s) ∧
      unpack_dequantize_weight b' u' s' = specDequantVal b' u' s' := by
  have key : ∀ c, c < 256 → ∀ t : ℕ, ∀ w : Bool,
      unpack_dequantize_weight c w t = toInt8 (specDequantVal c w t) := by
    intro c hc t w
    rw [unpack_scale_mod, specDequantVal_scale_mod]
    exact unpack_eq_toInt8_spec_small c hc (t % 4) (Nat.mod_lt _ (by norm_num)) w
  refine ⟨key b hb s u, ?_⟩
  rw [key b' hb' s' u', toInt8_eq_of_bounds hfit1 hfit2]

/-- C2, witness at byte 7 / scale 3 and at byte 23 / scale 0. -/
theorem C2_witness :
    unpack_dequantize_weight 7 false 3 = toInt8 (specDequantVal 7 false 3) ∧
      unpack_dequantize_weight 23 true 0 = specDequantVal 23 true 0 :=
  C2_dequantize_truncated 7 3 23 0 false true (by norm_num) (by norm_num)
    (by norm_num) (by norm_num) (by decide) (by decide)

/-- C4, counterexample: the group `[12, 0, ..., 0]` derives shift 0; 12 is
quantized to the saturated nibble 7, and the round-trip error 5 exceeds the
claimed bound `2^(2*0-1) = 1/2`. -/
theorem C4_counterexample :
    ¬ (|(unpack_dequantize_weight ((quantize_mxint4 wsSat 1 16).1.getD (0 / 2) 0)
          (0 % 2 == 1) ((quantize_mxint4 wsSat 1 16).2.getD (0 / GROUP_SIZE) 0) : ℚ)
        - wsSat.getD 0 0|
      ≤ (2 : ℚ) ^ (2 * (((quantize_mxint4 wsSat 1 16).2.getD (0 / GROUP_SIZE) 0 : ℕ) : ℤ) - 1)) := by
  rw [show (0 : ℕ) / 2 = 0 from rfl, show (0 : ℕ) / GROUP_SIZE = 0 from rfl,
    wsSat_byte, wsSat_scale,
    show unpack_dequantize_weight 7 (0 % 2 == 1) 0 = 7 from by decide,
    show wsSat.getD 0 0 = 12 from rfl]
  intro hcontra
  rw [show (2 * ((0 : ℕ) : ℤ) - 1) = -1 from by norm_num] at hcontra
  rw [show ((2 : ℚ) ^ (-1 : ℤ)) = 1 / 2 from by norm_num] at hcontra
  norm_num at hcontra

/-- C4, amended: the round-trip bound `|dequantize (quantize w) - w| ≤
2^(2*shift - 1)` holds for every element whose rounded scaled value neither
saturates the signed 4-bit range `[-8, 7]` nor overflows `int8_t` after the
dequantization shift; saturation and int8 wrap (both reachable) break it. -/
theorem C4_roundtrip_bound (ws : List ℚ) (K N idx s : ℕ) (v : ℤ)
    (hidx : idx < K * N) (hdvd : GROUP_SIZE ∣ K * N)
    (hs : s = (quantize_mxint4 ws K N).2.getD (idx / GROUP_SIZE) 0)
    (hv : v = cround (ws.getD idx 0 / 2 ^ (s * 2)))
    (hv1 : -8 ≤ v) (hv2 : v ≤ 7)
    (hfit1 : -128 ≤ v * 2 ^ (s * 2)) (hfit2 : v * 2 ^ (s * 2) ≤ 127) :
    |(unpack_dequantize_weight ((quantize_mxint4 ws K N).1.getD (idx / 2) 0)
        (idx % 2 == 1) ((quantize_mxint4 ws K N).2.getD (idx / GROUP_SIZE) 0) : ℚ)
      - ws.getD idx 0| ≤ (2 : ℚ) ^ (2 * (s : ℤ) - 1) := by
  have hs' : s = groupShift (groupMaxAbs ws (idx / GROUP_SIZE * GROUP_SIZE)) := by
    rw [hs, quantize_snd_getD _ _ _ _ (Nat.div_lt_div_of_lt_of_dvd hdvd hidx)]
  rw [show ((2 : ℚ) ^ (2 * (s : ℤ) - 1)) = 2 ^ (s * 2) / 2 from by
    rw [zpow_sub₀ (by norm_num : (2 : ℚ) ≠ 0),
      show (2 : ℤ) * (s : ℤ) = ((s * 2 : ℕ) : ℤ) from by push_cast; ring, zpow_natCast]
    norm_num]
  exact roundtrip_bound ws K N idx hidx hdvd s hs' v hv hv1 hv2 hfit1 hfit2

/-- C4, witness: a group of ones quantizes with shift 0 and zero error. -/
theorem C4_witness :
    |(unpack_dequantize_weight ((quantize_mxint4 wsOnes 1 16).1.getD (0 / 2) 0)
        (0 % 2 == 1) ((quantize_mxint4 wsOnes 1 16).2.getD (0 / GROUP_SIZE) 0) : ℚ)
      - wsOnes.getD 0 0| ≤ (2 : ℚ) ^ (2 * ((0 : ℕ) : ℤ) - 1) :=
  C4_roundtrip_bound wsOnes 1 16 0 0 1 (by decide) (by decide)
    (by rw [show (0 : ℕ) / GROUP_SIZE = 0 from rfl, wsOnes_scale])
    (by rw [show wsOnes.getD 0 0 = 1 from rfl, show (1 : ℚ) / 2 ^ (0 * 2) = 1 from by norm_num,
      cround_one])
    (by decide) (by decide) (by decide) (by decide)

/-- C7, counterexample: for the group `[10000, 0, ..., 0]` (shift 3) the
rounded scaled value 156 overflows `int8_t`, wraps to -100 and clamps to -8:
the low nibble of byte 0 is 8, not the nibble 7 of the clamped value the claim
describes. -/
theorem C7_counterexample :
    (quantize_mxint4 wsBig 1 16).1.getD 0 0
      ≠ nibbleOf (specQuantVal (wsBig.getD (2 * 0) 0)
            ((quantize_mxint4 wsBig 1 16).2.getD 0 0))
          + 16 * nibbleOf (specQuantVal (wsBig.getD (2 * 0 + 1) 0)
            ((quantize_mxint4 wsBig 1 16).2.getD 0 0)) := by
  rw [wsBig_byte, wsBig_scale, show wsBig.getD (2 * 0) 0 = 10000 from rfl,
    show wsBig.getD (2 * 0 + 1) 0 = 0 from rfl, specQuantVal_big, specQuantVal_zero]
  decide

/-- C7, amended: the codec emits a packed buffer of length `K*N/2` and a scale
buffer of length `K*N/GROUP_SIZE`, and byte `i` packs the quantized
clamped-to-`[-8,7]` values of elements `2i` (low nibble) and `2i+1` (high
nibble) — provided both rounded scaled values fit `int8_t`, i.e. lie in
`[-128, 127]`; outside that range the float-to-`int8_t` conversion wraps
before the clamp and the packed nibble may differ from the clamp-only value
(it does at the counterexample). -/
theorem C7_packing (ws : List ℚ) (K N i s : ℕ)
    (hi : 2 * i + 1 < K * N) (hdvd : GROUP_SIZE ∣ K * N)
    (hs : s = (quantize_mxint4 ws K N).2.getD (2 * i / GROUP_SIZE) 0)
    (hfit0a : -128 ≤ cround (ws.getD (2 * i) 0 / 2 ^ (s * 2)))
    (hfit0b : cround (ws.getD (2 * i) 0 / 2 ^ (s * 2)) ≤ 127)
    (hfit1a : -128 ≤ cround (ws.getD (2 * i + 1) 0 / 2 ^ (s * 2)))
    (hfit1b : cround (ws.getD (2 * i + 1) 0 / 2 ^ (s * 2)) ≤ 127) :
    (quantize_mxint4 ws K N).1.length = K * N / 2 ∧
      (quantize_mxint4 ws K N).2.length = K * N / GROUP_SIZE ∧
      (quantize_mxint4 ws K N).1.getD i 0
        = nibbleOf (specQuantVal (ws.getD (2 * i) 0) s)
            + 16 * nibbleOf (specQuantVal (ws.getD (2 * i + 1) 0) s) := by
  have h2dvd : 2 ∣ K * N := dvd_trans (by decide) hdvd
  have h2i : 2 * i < K * N := lt_of_le_of_lt (Nat.le_succ _) hi
  have hp : i < K * N / 2 := by
    have := Nat.div_lt_div_of_lt_of_dvd h2dvd h2i
    rw [Nat.mul_div_cancel_left i (by norm_num : 0 < 2)] at this
    exact this
  have hdd : i / 8 = 2 * i / GROUP_SIZE := by
    rw [show GROUP_SIZE = 2 * 8 from rfl, Nat.mul_div_mul_left _ _ (by norm_num : 0 < 2)]
  have hgrp : 2 * i / GROUP_SIZE < K * N / GROUP_SIZE :=
    Nat.div_lt_div_of_lt_of_dvd hdvd h2i
  refine ⟨?_, ?_, ?_⟩
  · unfold quantize_mxint4
    rw [List.length_map, List.length_range]
  · unfold quantize_mxint4
    rw [List.length_map, List.length_range]
  · rw [quantize_fst_getD ws K N i hp, hdd, if_pos hgrp]
    have hsg : groupShift (groupMaxAbs ws (2 * i / GROUP_SIZE * GROUP_SIZE)) = s := by
      rw [hs, quantize_snd_getD _ _ _ _ hgrp]
    rw [hsg, quantWeight_eq_spec hfit0a hfit0b, quantWeight_eq_spec hfit1a hfit1b]

/-- C7, witness on the all-ones group. -/
theorem C7_witness :
    (quantize_mxint4 wsOnes 1 16).1.length = 1 * 16 / 2 ∧
      (quantize_mxint4 wsOnes 1 16).2.length = 1 * 16 / GROUP_SIZE ∧
      (quantize_mxint4 wsOnes 1 16).1.getD 0 0
        = nibbleOf (specQuantVal (wsOnes.getD (2 * 0) 0) 0)
            + 16 * nibbleOf (specQuantVal (wsOnes.getD (2 * 0 + 1) 0) 0) :=
  C7_packing wsOnes 1 16 0 0 (by decide) (by decide)
    (by rw [show 2 * 0 / GROUP_SIZE = 0 from rfl, wsOnes_scale])
    (by rw [show wsOnes.getD (2 * 0) 0 = 1 from rfl,
      show (1 : ℚ) / 2 ^ (0 * 2) = 1 from by norm_num, cround_one]; decide)
    (by rw [show wsOnes.getD (2 * 0) 0 = 1 from rfl,
      show (1 : ℚ) / 2 ^ (0 * 2) = 1 from by norm_num, cround_one]; decide)
    (by rw [show wsOnes.getD (2 * 0 + 1) 0 = 1 from rfl,
      show (1 : ℚ) / 2 ^ (0 * 2) = 1 from by norm_num, cround_one]; decide)
    (by rw [show wsOnes.getD (2 * 0 + 1) 0 = 1 from rfl,
      show (1 : ℚ) / 2 ^ (0 * 2) = 1 from by norm_num, cround_one]; decide)

/-- C6: the scale the codec stores for a group is the clamp to `[0, 3]` of
`floor(log2 max_abs) - 3` — stated through the characterizing inequalities
`2^e ≤ max_abs < 2^(e+1)` of the floor of the base-2 logarithm; a group whose
max magnitude is 0 (in particular an all-zero group) gets scale 0, and an
all-zero group packs all-zero bytes. -/
theorem C6_group_scale (ws : List ℚ) (K N g : ℕ) (e : ℤ)
    (ws2 : List ℚ) (K2 N2 g2 p : ℕ)
    (hg : g < K * N / GROUP_SIZE)
    (he1 : (2 : ℚ) ^ e ≤ groupMaxAbs ws (g * GROUP_SIZE))
    (he2 : groupMaxAbs ws (g * GROUP_SIZE) < 2 ^ (e + 1))
    (hg2 : g2 < K2 * N2 / GROUP_SIZE)
    (hz : ∀ i, i < GROUP_SIZE → ws2.getD (g2 * GROUP_SIZE + i) 0 = 0)
    (hp1 : g2 * 8 ≤ p) (hp2 : p < g2 * 8 + 8) :
    (((quantize_mxint4 ws K N).2.getD g 0 : ℕ) : ℤ) = min 3 (max 0 (e - 3)) ∧
      (quantize_mxint4 ws2 K2 N2).2.getD g2 0 = 0 ∧
      (quantize_mxint4 ws2 K2 N2).1.getD p 0 = 0 := by
  refine ⟨?_, ?_, ?_⟩
  · rw [quantize_snd_getD _ _ _ _ hg]
    set A := groupMaxAbs ws (g * GROUP_SIZE) with hA
    have hb : (1 : ℕ) < 2 := by norm_num
    have hpos : 0 < A := lt_of_lt_of_le (by positivity) he1
    have hlog : Int.log 2 A = e := by
      have hle : e ≤ Int.log 2 A := by
        rw [← Int.zpow_le_iff_le_log hb hpos]
        exact_mod_cast he1
      have hlt : Int.log 2 A < e + 1 := by
        rw [← Int.lt_zpow_iff_log_lt hb hpos]
        exact_mod_cast he2
      omega
    unfold groupShift
    rw [if_pos hpos, hlog]
    have hnn : 0 ≤ max 0 (min 3 (e - 3)) := le_max_left _ _
    rw [Int.toNat_of_nonneg hnn]
    omega
  · rw [quantize_snd_getD _ _ _ _ hg2, groupMaxAbs_of_zeros _ _ hz, groupShift_eval]
    norm_num
  · have hpKN : p < K2 * N2 / 2 := by
      have h8 : K2 * N2 / GROUP_SIZE * 8 ≤ K2 * N2 / 2 := by
        rw [show GROUP_SIZE = 2 * 8 from rfl, ← Nat.div_div_eq_div_mul]
        exact Nat.div_mul_le_self _ 8
      calc p < g2 * 8 + 8 := hp2
        _ = (g2 + 1) * 8 := by ring
        _ ≤ K2 * N2 / GROUP_SIZE * 8 := Nat.mul_le_mul_right _ hg2
        _ ≤ K2 * N2 / 2 := h8
    have hpg : p / 8 = g2 := by omega
    rw [quantize_fst_getD _ _ _ _ hpKN, hpg, if_pos hg2]
    have hw0 : ws2.getD (2 * p) 0 = 0 := by
      have h := hz (2 * p - g2 * GROUP_SIZE) (by
        simp only [GROUP_SIZE]
        omega)
      rw [show g2 * GROUP_SIZE + (2 * p - g2 * GROUP_SIZE) = 2 * p from by
        simp only [GROUP_SIZE]
        omega] at h
      exact h
    have hw1 : ws2.getD (2 * p + 1) 0 = 0 := by
      have h := hz (2 * p + 1 - g2 * GROUP_SIZE) (by
        simp only [GROUP_SIZE]
        omega)
      rw [show g2 * GROUP_SIZE + (2 * p + 1 - g2 * GROUP_SIZE) = 2 * p + 1 from by
        simp only [GROUP_SIZE]
        omega] at h
      exact h
    rw [hw0, hw1, quantWeight_zero]
    decide

/-- C6, witness: the all-ones group with e = 0 gets scale 0; the all-zero
group gets scale 0 and zero byte 0. -/
theorem C6_witness :
    (((quantize_mxint4 wsOnes 1 16).2.getD 0 0 : ℕ) : ℤ) = min 3 (max 0 ((0 : ℤ) - 3)) ∧
      (quantize_mxint4 wsZeros 1 16).2.getD 0 0 = 0 ∧
      (quantize_mxint4 wsZeros 1 16).1.getD 0 0 = 0 :=
  C6_group_scale wsOnes 1 16 0 0 wsZeros 1 16 0 0 (by decide)
    (by rw [show (0 : ℕ) * GROUP_SIZE = 0 from rfl, wsOnes_maxAbs]; norm_num)
    (by rw [show (0 : ℕ) * GROUP_SIZE = 0 from rfl, wsOnes_maxAbs]; norm_num)
    (by decide) (by decide) (by decide) (by decide)

theorem refElem_cex : refElem actOnes wgtOnes scZeros 2 16 0 0 = 2 := by decide

/-- C3, counterexample: with M = 24 — not divisible by PE_ROWS — the kernel is
not rejected: it reads the buffers and writes the computed value 2 into
result index 0 (the initial result buffer held 0 everywhere). -/
theorem C3_counterexample :
    ¬ PE_ROWS ∣ 24 ∧
      (SystolicArrayKernel actOnes wgtOnes scZeros 24 2 16 zeroState (fun _ => 0)).2 0 = 2 := by
  refine ⟨by decide, ?_⟩
  have h := kernel_result_written actOnes wgtOnes scZeros 24 2 16 zeroState (fun _ => 0) 0 0
    (by decide) (by decide)
  rw [show (0 : ℕ) * 16 + 0 = 0 from rfl] at h
  rw [h]
  exact refElem_cex

/-- C3, amended: `SystolicArrayKernel` performs no precondition check.  Called
with M not divisible by PE_ROWS it still runs: every output element inside the
`⌊M/PE_ROWS⌋ × ⌊N/PE_COLS⌋` complete tiles is computed as usual, and output
rows at or beyond `⌊M/PE_ROWS⌋*PE_ROWS` are left untouched. -/
theorem C3_no_rejection (act : List ℤ) (wp sc : List ℕ) (M K N : ℕ)
    (st : SAState) (res0 : ℕ → ℤ) (m n m' n' : ℕ)
    (hM : ¬ PE_ROWS ∣ M)
    (hm : m < M / PE_ROWS * PE_ROWS) (hn : n < N / PE_COLS * PE_COLS)
    (hm' : M / PE_ROWS * PE_ROWS ≤ m') (hn' : n' < N) :
    (SystolicArrayKernel act wp sc M K N st res0).2 (m * N + n)
        = refElem act wp sc K N m n ∧
      (SystolicArrayKernel act wp sc M K N st res0).2 (m' * N + n')
        = res0 (m' * N + n') :=
  ⟨kernel_result_written act wp sc M K N st res0 m n hm hn,
    kernel_result_tail_rows act wp sc M K N st res0 m' n' hm' hn'⟩

/-- C3, witness at M = 24, K = 2, N = 16. -/
theorem C3_witness :
    (SystolicArrayKernel actOnes wgtOnes scZeros 24 2 16 zeroState (fun _ => 0)).2 (0 * 16 + 0)
        = refElem actOnes wgtOnes scZeros 2 16 0 0 ∧
      (SystolicArrayKernel actOnes wgtOnes scZeros 24 2 16 zeroState (fun _ => 0)).2 (16 * 16 + 0)
        = (fun _ => (0 : ℤ)) (16 * 16 + 0) :=
  C3_no_rejection actOnes wgtOnes scZeros 24 2 16 zeroState (fun _ => 0) 0 0 16 0
    (by decide) (by decide) (by decide) (by decide) (by decide)

/-- C1: on every tile-divisible, size-bounded input with the contracted buffer
lengths, the kernel's output matrix agrees element for element with the
reference model. -/
theorem C1_engine_matches_reference (act : List ℤ) (wp sc : List ℕ) (M K N : ℕ)
    (st : SAState) (res0 : ℕ → ℤ) (m n : ℕ)
    (hdM : PE_ROWS ∣ M) (hdK : GROUP_SIZE ∣ K) (hdN : PE_COLS ∣ N)
    (hM : M ≤ M_DIM) (hK : K ≤ K_DIM) (hN : N ≤ N_DIM)
    (hla : act.length = M * K) (hlw : wp.length = K * N / 2)
    (hls : sc.length = K * N / GROUP_SIZE)
    (hact : ∀ a ∈ act, -128 ≤ a ∧ a ≤ 127)
    (hm : m < M) (hn : n < N) :
    (SystolicArrayKernel act wp sc M K N st res0).2 (m * N + n)
      = cpu_reference act wp sc M K N (m * N + n) := by
  rw [kernel_result_written act wp sc M K N st res0 m n
      (by rw [Nat.div_mul_cancel hdM]; exact hm)
      (by rw [Nat.div_mul_cancel hdN]; exact hn),
    cpu_reference_apply act wp sc M K N m n hm hn]

/-- Concrete witness buffers: M = K = N = 16, all activations 1, all weight
bytes `0x11`, all scales 0. -/
def actW : List ℤ := List.replicate 256 1

def wgtW : List ℕ := List.replicate 128 17

def scW : List ℕ := List.replicate 16 0

/-- C1, witness at M = K = N = 16, output element (0, 0). -/
theorem C1_witness :
    (SystolicArrayKernel actW wgtW scW 16 16 16 zeroState (fun _ => 0)).2 (0 * 16 + 0)
      = cpu_reference actW wgtW scW 16 16 16 (0 * 16 + 0) :=
  C1_engine_matches_reference actW wgtW scW 16 16 16 zeroState (fun _ => 0) 0 0
    (by decide) (by decide) (by decide) (by decide) (by decide) (by decide)
    (by decide) (by decide) (by decide) (by decide) (by decide) (by decide)

/-- C5: the reference model writes at `out[m*N + n]` the sum over `k` of the
activation at `m*K + k` times the weight dequantized from packed byte
`(k*N+n)/2`, nibble selected by the parity of `k*N+n`, scale from group
`(k*N+n)/GROUP_SIZE`. -/
theorem C5_reference_formula (act : List ℤ) (wp sc : List ℕ) (M K N m n : ℕ)
    (hdM : PE_ROWS ∣ M) (hdK : GROUP_SIZE ∣ K) (hdN : PE_COLS ∣ N)
    (hM : M ≤ M_DIM) (hK : K ≤ K_DIM) (hN : N ≤ N_DIM)
    (hla : act.length = M * K) (hlw : wp.length = K * N / 2)
    (hls : sc.length = K * N / GROUP_SIZE)
    (hact : ∀ a ∈ act, -128 ≤ a ∧ a ≤ 127)
    (hm : m < M) (hn : n < N) :
    cpu_reference act wp sc M K N (m * N + n)
      = ∑ k ∈ Finset.range K, act.getD (m * K + k) 0
          * unpack_dequantize_weight (wp.getD ((k * N + n) / 2) 0)
              ((k * N + n) % 2 == 1) (sc.getD ((k * N + n) / GROUP_SIZE) 0) := by
  rw [cpu_reference_apply act wp sc M K N m n hm hn,
    refElem_eq_sum act wp sc K N m n (le_trans hK (by decide)) hact]
  rfl

/-- C5, witness at M = K = N = 16, output element (0, 0). -/
theorem C5_witness :
    cpu_reference actW wgtW scW 16 16 16 (0 * 16 + 0)
      = ∑ k ∈ Finset.range 16, actW.getD (0 * 16 + k) 0
          * unpack_dequantize_weight (wgtW.getD ((k * 16 + 0) / 2) 0)
              ((k * 16 + 0) % 2 == 1) (scW.getD ((k * 16 + 0) / GROUP_SIZE) 0) :=
  C5_reference_formula actW wgtW scW 16 16 16 0 0
    (by decide) (by decide) (by decide) (by decide) (by decide) (by decide)
    (by decide) (by decide) (by decide) (by decide) (by decide) (by decide)

/-- C8: with int8 activations and `K ≤ 4096`, the per-element accumulations of
both the reference model and the engine's compute loop equal the exact
mathematical integer sum — the 32-bit accumulator never wraps. -/
theorem C8_no_overflow (act : List ℤ) (wp sc : List ℕ) (M K N : ℕ)
    (st : SAState) (res0 : ℕ → ℤ) (m n : ℕ)
    (hact : ∀ a ∈ act, -128 ≤ a ∧ a ≤ 127) (hK : K ≤ 4096)
    (hdM : PE_ROWS ∣ M) (hdN : PE_COLS ∣ N) (hm : m < M) (hn : n < N) :
    cpu_reference act wp sc M K N (m * N + n)
        = ∑ k ∈ Finset.range K, act.getD (m * K + k) 0 * deqAt wp sc N k n ∧
      (SystolicArrayKernel act wp sc M K N st res0).2 (m * N + n)
        = ∑ k ∈ Finset.range K, act.getD (m * K + k) 0 * deqAt wp sc N k n := by
  constructor
  · rw [cpu_reference_apply act wp sc M K N m n hm hn]
    exact refElem_eq_sum act wp sc K N m n hK hact
  · rw [kernel_result_written act wp sc M K N st res0 m n
      (by rw [Nat.div_mul_cancel hdM]; exact hm)
      (by rw [Nat.div_mul_cancel hdN]; exact hn)]
    exact refElem_eq_sum act wp sc K N m n hK hact

/-- C8, witness at M = K = N = 16, output element (0, 0). -/
theorem C8_witness :
    cpu_reference actW wgtW scW 16 16 16 (0 * 16 + 0)
        = ∑ k ∈ Finset.range 16, actW.getD (0 * 16 + k) 0 * deqAt wgtW scW 16 k 0 ∧
      (SystolicArrayKernel actW wgtW scW 16 16 16 zeroState (fun _ => 0)).2 (0 * 16 + 0)
        = ∑ k ∈ Finset.range 16, actW.getD (0 * 16 + k) 0 * deqAt wgtW scW 16 k 0 :=
  C8_no_overflow actW wgtW scW 16 16 16 zeroState (fun _ => 0) 0 0
    (by decide) (by decide) (by decide) (by decide) (by decide) (by decide)

/-- C9: the kernel is deterministic and its output is independent of the
initial contents of the file-scope statics `A_cache`, `W_cache`, `A_work`,
`W_work`, `C_work`: invocations with identical inputs, dimensions and initial
result buffer yield identical result buffers for any two initial statics. -/
theorem C9_static_independence (act : List ℤ) (wp sc : List ℕ) (M K N : ℕ)
    (st st' : SAState) (res0 : ℕ → ℤ)
    (hM : M ≤ M_DIM) (hK : K ≤ K_DIM) (hN : N ≤ N_DIM) :
    (SystolicArrayKernel act wp sc M K N st res0).2
      = (SystolicArrayKernel act wp sc M K N st' res0).2 := by
  unfold SystolicArrayKernel
  rw [phase3_result, phase3_result]
  refine List.foldl_ext _ _ res0 ?_
  intro r mn hmn
  obtain ⟨mt, nt⟩ := mn
  unfold tileList at hmn
  rw [mem_rangeProduct] at hmn
  obtain ⟨hmt, hnt⟩ := hmn
  refine List.foldl_ext _ _ r ?_
  intro r' idx hidx
  unfold outList at hidx
  rw [List.mem_range] at hidx
  have hi : idx / PE_COLS < PE_ROWS :=
    Nat.div_lt_of_lt_mul (by rw [mul_comm]; exact hidx)
  have hj : idx % PE_COLS < PE_COLS := Nat.mod_lt _ (by decide)
  refine congrArg _ ?_
  unfold cellVal
  refine List.foldl_ext _ _ 0 ?_
  intro acc k hk
  have hk' : k < K := List.mem_range.mp hk
  dsimp only
  rw [phase1_apply, phase1_apply, phase2_apply, phase2_apply,
    if_pos ⟨hmt, hi, hk'⟩, if_pos ⟨hnt, hj, hk'⟩,
    if_pos ⟨hmt, hi, hk'⟩, if_pos ⟨hnt, hj, hk'⟩]

/-- C9, witness: zeroed versus all-ones initial statics at M = K = N = 16. -/
theorem C9_witness :
    (SystolicArrayKernel actW wgtW scW 16 16 16 zeroState (fun _ => 0)).2
      = (SystolicArrayKernel actW wgtW scW 16 16 16 oneState (fun _ => 0)).2 :=
  C9_static_independence actW wgtW scW 16 16 16 zeroState oneState (fun _ => 0)
    (by decide) (by decide) (by decide)

/-! ### Counting output writes -/

theorem count_map_of_none {α β : Type _} [DecidableEq β] (l : List α) (f : α → β) (t : β)
    (h : ∀ b ∈ l, f b ≠ t) : (l.map f).count t = 0 := by
  induction l with
  | nil => rfl
  | cons a l ih =>
    rw [List.map_cons, List.count_cons]
    rw [ih fun b hb => h b (List.mem_cons_of_mem _ hb)]
    simp [h a (List.mem_cons_self a l)]

theorem count_map_of_unique {α β : Type _} [DecidableEq β] (l : List α) (f : α → β) (t : β)
    (a : α) (hnd : l.Nodup) (ha : a ∈ l) (hfa : f a = t)
    (huniq : ∀ b ∈ l, f b = t → b = a) : (l.map f).count t = 1 := by
  induction l with
  | nil => simp at ha
  | cons c l ih =>
    have hnd' := List.nodup_cons.mp hnd
    rw [List.map_cons, List.count_cons]
    rcases List.mem_cons.mp ha with rfl | hal
    · rw [count_map_of_none l f t ?_, hfa]
      · simp
      · intro b hb hbt
        have hbc : b = a := huniq b (List.mem_cons_of_mem _ hb) hbt
        rw [hbc] at hb
        exact absurd hb hnd'.1
    · rw [ih hnd'.2 hal fun b hb hbt => huniq b (List.mem_cons_of_mem _ hb) hbt]
      have hct : f c ≠ t := by
        intro hct
        have hca : c = a := huniq c (List.mem_cons_self c l) hct
        rw [hca] at hnd'
        exact hnd'.1 hal
      simp [hct]

theorem count_flatMap_list {α γ : Type _} [DecidableEq γ] (l : List α) (f : α → List γ)
    (c : γ) : (l.flatMap f).count c = (l.map fun a => (f a).count c).sum := by
  induction l with
  | nil => rfl
  | cons a l ih =>
    rw [List.flatMap_cons, List.count_append, List.map_cons, List.sum_cons, ih]

theorem sum_map_indicator {α : Type _} [DecidableEq α] (l : List α) (g : α → ℕ) (a : α)
    (hnd : l.Nodup) (ha : a ∈ l) (hga : g a = 1)
    (hother : ∀ b ∈ l, b ≠ a → g b = 0) : (l.map g).sum = 1 := by
  induction l with
  | nil => simp at ha
  | cons c l ih =>
    have hnd' := List.nodup_cons.mp hnd
    rw [List.map_cons, List.sum_cons]
    rcases List.mem_cons.mp ha with rfl | hal
    · have htail : (l.map g).sum = 0 := by
        rw [List.sum_eq_zero]
        intro x hx
        rw [List.mem_map] at hx
        obtain ⟨b, hb, rfl⟩ := hx
        refine hother b (List.mem_cons_of_mem _ hb) ?_
        intro hba
        rw [hba] at hb
        exact hnd'.1 hb
      rw [hga, htail]
    · have hc : g c = 0 := by
        refine hother c (List.mem_cons_self c l) ?_
        intro hca
        rw [hca] at hnd'
        exact hnd'.1 hal
      rw [hc, ih hnd'.2 hal fun b hb hba => hother b (List.mem_cons_of_mem _ hb) hba]

/-- Under tile-divisibility every in-range output index is written exactly once. -/
theorem resultWriteIdxs_count (M N m n : ℕ) (hdM : PE_ROWS ∣ M) (hdN : PE_COLS ∣ N)
    (hm : m < M) (hn : n < N) : (resultWriteIdxs M N).count (m * N + n) = 1 := by
  have hnN : n / PE_COLS < N / PE_COLS := Nat.div_lt_div_of_lt_of_dvd hdN hn
  have hmM : m / PE_ROWS < M / PE_ROWS := Nat.div_lt_div_of_lt_of_dvd hdM hm
  have hnpart : ∀ nt idx : ℕ, nt < N / PE_COLS → idx < PE_ROWS * PE_COLS →
      nt * PE_COLS + idx % PE_COLS < N := by
    intro nt idx hnt _
    have hjo : idx % PE_COLS < PE_COLS := Nat.mod_lt _ (by decide)
    calc nt * PE_COLS + idx % PE_COLS < nt * PE_COLS + PE_COLS := Nat.add_lt_add_left hjo _
      _ = (nt + 1) * PE_COLS := by ring
      _ ≤ N / PE_COLS * PE_COLS := Nat.mul_le_mul_right _ hnt
      _ ≤ N := Nat.div_mul_le_self _ _
  unfold resultWriteIdxs
  rw [count_flatMap_list]
  refine sum_map_indicator _ _ (m / PE_ROWS, n / PE_COLS) ?_ ?_ ?_ ?_
  · unfold tileList
    exact nodup_rangeProduct _ _
  · unfold tileList
    exact mem_rangeProduct.mpr ⟨hmM, hnN⟩
  · refine count_map_of_unique outList (outKey (m / PE_ROWS) (n / PE_COLS) N) _
      (m % PE_ROWS * PE_COLS + n % PE_COLS) ?_ ?_ ?_ ?_
    · unfold outList
      exact List.nodup_range _
    · unfold outList
      rw [List.mem_range]
      have h1 : m % PE_ROWS < PE_ROWS := Nat.mod_lt _ (by decide)
      have h2 : n % PE_COLS < PE_COLS := Nat.mod_lt _ (by decide)
      simp only [PE_ROWS, PE_COLS] at h1 h2 ⊢
      omega
    · unfold outKey
      have h2 : n % PE_COLS < PE_COLS := Nat.mod_lt _ (by decide)
      rw [idx_div h2, idx_mod h2,
        Nat.mul_comm (m / PE_ROWS) PE_ROWS, Nat.div_add_mod,
        Nat.mul_comm (n / PE_COLS) PE_COLS, Nat.div_add_mod]
    · intro idx hidx hkey
      unfold outList at hidx
      rw [List.mem_range] at hidx
      unfold outKey at hkey
      have hb := hnpart (n / PE_COLS) idx hnN hidx
      have hsplit := flatIndex_inj hb hn hkey
      have hio : idx / PE_COLS < PE_ROWS :=
        Nat.div_lt_of_lt_mul (by rw [mul_comm]; exact hidx)
      have h1 := hsplit.1
      have h2 := hsplit.2
      simp only [PE_ROWS, PE_COLS] at h1 h2 hio ⊢
      omega
  · rintro ⟨mt, nt⟩ hb hbne
    unfold tileList at hb
    rw [mem_rangeProduct] at hb
    refine count_map_of_none _ _ _ ?_
    intro idx hidx hkey
    unfold outList at hidx
    rw [List.mem_range] at hidx
    unfold outKey at hkey
    have hbound := hnpart nt idx hb.2 hidx
    have hsplit := flatIndex_inj hbound hn hkey
    have hio : idx / PE_COLS < PE_ROWS :=
      Nat.div_lt_of_lt_mul (by rw [mul_comm]; exact hidx)
    have hjo : idx % PE_COLS < PE_COLS := Nat.mod_lt _ (by decide)
    have hne : ¬(mt = m / PE_ROWS ∧ nt = n / PE_COLS) := by
      intro hc
      exact hbne (Prod.ext hc.1 hc.2)
    have h1 := hsplit.1
    have h2 := hsplit.2
    simp only [PE_ROWS, PE_COLS] at h1 h2 hio hjo hne
    omega

/-! ### Bounds of every access index -/

theorem actReadIdxs_bound (M K : ℕ) : ∀ i ∈ actReadIdxs M K, i < M * K := by
  intro i hi
  unfold actReadIdxs phase1List at hi
  rw [List.mem_map] at hi
  obtain ⟨⟨mt, idx⟩, hmem, rfl⟩ := hi
  rw [mem_rangeProduct] at hmem
  obtain ⟨hmt, hidx⟩ := hmem
  have hK : 0 < K := by
    by_contra h0
    rw [Nat.eq_zero_of_not_pos h0, Nat.mul_zero] at hidx
    exact Nat.not_lt_zero _ hidx
  have hdiv : idx / K < PE_ROWS := Nat.div_lt_of_lt_mul (by rw [mul_comm]; exact hidx)
  have hmod : idx % K < K := Nat.mod_lt _ hK
  have hrow : mt * PE_ROWS + idx / K < M := by
    calc mt * PE_ROWS + idx / K < mt * PE_ROWS + PE_ROWS := Nat.add_lt_add_left hdiv _
      _ = (mt + 1) * PE_ROWS := by ring
      _ ≤ M / PE_ROWS * PE_ROWS := Nat.mul_le_mul_right _ hmt
      _ ≤ M := Nat.div_mul_le_self _ _
  calc (mt * PE_ROWS + idx / K) * K + idx % K
      < (mt * PE_ROWS + idx / K) * K + K := Nat.add_lt_add_left hmod _
    _ = (mt * PE_ROWS + idx / K + 1) * K := by ring
    _ ≤ M * K := Nat.mul_le_mul_right _ hrow

theorem wgtLinearIdxs_bound (K N : ℕ) : ∀ i ∈ wgtLinearIdxs K N, i < K * N := by
  intro i hi
  unfold wgtLinearIdxs phase2List at hi
  rw [List.mem_map] at hi
  obtain ⟨⟨nt, idx⟩, hmem, rfl⟩ := hi
  rw [mem_rangeProduct] at hmem
  obtain ⟨hnt, hidx⟩ := hmem
  have hK : 0 < K := by
    by_contra h0
    rw [Nat.eq_zero_of_not_pos h0, Nat.mul_zero] at hidx
    exact Nat.not_lt_zero _ hidx
  have hdiv : idx / K < PE_COLS := Nat.div_lt_of_lt_mul (by rw [mul_comm]; exact hidx)
  have hmod : idx % K < K := Nat.mod_lt _ hK
  have hcol : nt * PE_COLS + idx / K < N := by
    calc nt * PE_COLS + idx / K < nt * PE_COLS + PE_COLS := Nat.add_lt_add_left hdiv _
      _ = (nt + 1) * PE_COLS := by ring
      _ ≤ N / PE_COLS * PE_COLS := Nat.mul_le_mul_right _ hnt
      _ ≤ N := Nat.div_mul_le_self _ _
  calc idx % K * N + (nt * PE_COLS + idx / K)
      < idx % K * N + N := Nat.add_lt_add_left hcol _
    _ = (idx % K + 1) * N := by ring
    _ ≤ K * N := Nat.mul_le_mul_right _ hmod

theorem wgtReadIdxs_bound (K N : ℕ) (hdN : PE_COLS ∣ N) :
    ∀ i ∈ wgtReadIdxs K N, i < K * N / 2 := by
  intro i hi
  unfold wgtReadIdxs at hi
  rw [List.mem_map] at hi
  obtain ⟨w, hw, rfl⟩ := hi
  have h2 : 2 ∣ K * N := Dvd.dvd.mul_left (dvd_trans (by decide) hdN) K
  exact Nat.div_lt_div_of_lt_of_dvd h2 (wgtLinearIdxs_bound K N w hw)

theorem scaleReadIdxs_bound (K N : ℕ) (hdN : PE_COLS ∣ N) :
    ∀ i ∈ scaleReadIdxs K N, i < K * N / GROUP_SIZE := by
  intro i hi
  unfold scaleReadIdxs at hi
  rw [List.mem_map] at hi
  obtain ⟨w, hw, rfl⟩ := hi
  have h16 : GROUP_SIZE ∣ K * N := Dvd.dvd.mul_left (dvd_trans (by decide) hdN) K
  exact Nat.div_lt_div_of_lt_of_dvd h16 (wgtLinearIdxs_bound K N w hw)

theorem AcacheWriteIdxs_bound (M K : ℕ) (hM : M ≤ M_DIM) (hK : K ≤ K_DIM) :
    ∀ t ∈ AcacheWriteIdxs M K, t.1 < 8 ∧ t.2.1 < PE_ROWS ∧ t.2.2 < K_DIM := by
  intro t ht
  unfold AcacheWriteIdxs phase1List at ht
  rw [List.mem_map] at ht
  obtain ⟨⟨mt, idx⟩, hmem, rfl⟩ := ht
  rw [mem_rangeProduct] at hmem
  obtain ⟨hmt, hidx⟩ := hmem
  have hK0 : 0 < K := by
    by_contra h0
    rw [Nat.eq_zero_of_not_pos h0, Nat.mul_zero] at hidx
    exact Nat.not_lt_zero _ hidx
  refine ⟨?_, ?_, ?_⟩
  · calc mt < M / PE_ROWS := hmt
      _ ≤ M_DIM / PE_ROWS := Nat.div_le_div_right hM
      _ = 8 := by decide
  · exact Nat.div_lt_of_lt_mul (by rw [mul_comm]; exact hidx)
  · exact lt_of_lt_of_le (Nat.mod_lt _ hK0) hK

theorem WcacheWriteIdxs_bound (N K : ℕ) (hN : N ≤ N_DIM) (hK : K ≤ K_DIM) :
    ∀ t ∈ WcacheWriteIdxs N K, t.1 < 32 ∧ t.2.1 < PE_COLS ∧ t.2.2 < K_DIM := by
  intro t ht
  unfold WcacheWriteIdxs phase2List at ht
  rw [List.mem_map] at ht
  obtain ⟨⟨nt, idx⟩, hmem, rfl⟩ := ht
  rw [mem_rangeProduct] at hmem
  obtain ⟨hnt, hidx⟩ := hmem
  have hK0 : 0 < K := by
    by_contra h0
    rw [Nat.eq_zero_of_not_pos h0, Nat.mul_zero] at hidx
    exact Nat.not_lt_zero _ hidx
  refine ⟨?_, ?_, ?_⟩
  · calc nt < N / PE_COLS := hnt
      _ ≤ N_DIM / PE_COLS := Nat.div_le_div_right hN
      _ = 32 := by decide
  · exact Nat.div_lt_of_lt_mul (by rw [mul_comm]; exact hidx)
  · exact lt_of_lt_of_le (Nat.mod_lt _ hK0) hK

theorem AcacheReadIdxs_bound (M N K : ℕ) (hM : M ≤ M_DIM) (hK : K ≤ K_DIM) :
    ∀ t ∈ AcacheReadIdxs M N K, t.1 < 8 ∧ t.2.1 < PE_ROWS ∧ t.2.2 < K_DIM := by
  intro t ht
  unfold AcacheReadIdxs tileList copyList at ht
  rw [List.mem_flatMap] at ht
  obtain ⟨⟨mt, nt⟩, hmn, hmem⟩ := ht
  rw [mem_rangeProduct] at hmn
  rw [List.mem_map] at hmem
  obtain ⟨⟨k, i⟩, hki, rfl⟩ := hmem
  rw [mem_rangeProduct] at hki
  refine ⟨?_, hki.2, lt_of_lt_of_le hki.1 hK⟩
  calc mt < M / PE_ROWS := hmn.1
    _ ≤ M_DIM / PE_ROWS := Nat.div_le_div_right hM
    _ = 8 := by decide

theorem WcacheReadIdxs_bound (M N K : ℕ) (hN : N ≤ N_DIM) (hK : K ≤ K_DIM) :
    ∀ t ∈ WcacheReadIdxs M N K, t.1 < 32 ∧ t.2.1 < PE_COLS ∧ t.2.2 < K_DIM := by
  intro t ht
  unfold WcacheReadIdxs tileList copyList at ht
  rw [List.mem_flatMap] at ht
  obtain ⟨⟨mt, nt⟩, hmn, hmem⟩ := ht
  rw [mem_rangeProduct] at hmn
  rw [List.mem_map] at hmem
  obtain ⟨⟨k, j⟩, hkj, rfl⟩ := hmem
  rw [mem_rangeProduct] at hkj
  refine ⟨?_, hkj.2, lt_of_lt_of_le hkj.1 hK⟩
  calc nt < N / PE_COLS := hmn.2
    _ ≤ N_DIM / PE_COLS := Nat.div_le_div_right hN
    _ = 32 := by decide

theorem resultWriteIdxs_bound (M N : ℕ) : ∀ i ∈ resultWriteIdxs M N, i < M * N := by
  intro i hi
  unfold resultWriteIdxs tileList outList at hi
  rw [List.mem_flatMap] at hi
  obtain ⟨⟨mt, nt⟩, hmn, hmem⟩ := hi
  rw [mem_rangeProduct] at hmn
  rw [List.mem_map] at hmem
  obtain ⟨idx, hidx, rfl⟩ := hmem
  rw [List.mem_range] at hidx
  have hio : idx / PE_COLS < PE_ROWS :=
    Nat.div_lt_of_lt_mul (by rw [mul_comm]; exact hidx)
  have hjo : idx % PE_COLS < PE_COLS := Nat.mod_lt _ (by decide)
  have hrow : mt * PE_ROWS + idx / PE_COLS < M := by
    calc mt * PE_ROWS + idx / PE_COLS < mt * PE_ROWS + PE_ROWS := Nat.add_lt_add_left hio _
      _ = (mt + 1) * PE_ROWS := by ring
      _ ≤ M / PE_ROWS * PE_ROWS := Nat.mul_le_mul_right _ hmn.1
      _ ≤ M := Nat.div_mul_le_self _ _
  have hcol : nt * PE_COLS + idx % PE_COLS < N := by
    calc nt * PE_COLS + idx % PE_COLS < nt * PE_COLS + PE_COLS := Nat.add_lt_add_left hjo _
      _ = (nt + 1) * PE_COLS := by ring
      _ ≤ N / PE_COLS * PE_COLS := Nat.mul_le_mul_right _ hmn.2
      _ ≤ N := Nat.div_mul_le_self _ _
  unfold outKey
  calc (mt * PE_ROWS + idx / PE_COLS) * N + (nt * PE_COLS + idx % PE_COLS)
      < (mt * PE_ROWS + idx / PE_COLS) * N + N := Nat.add_lt_add_left hcol _
    _ = (mt * PE_ROWS + idx / PE_COLS + 1) * N := by ring
    _ ≤ M * N := Nat.mul_le_mul_right _ hrow

/-- C10: under the contracted preconditions, every index each loop nest of
`SystolicArrayKernel` uses into `A_cache` (8 M-tiles), `W_cache` (32 N-tiles,
depth `K_DIM`) and into the four memory-mapped buffers stays within bounds,
and each in-range output element `m*N + n` is written exactly once. -/
theorem C10_memory_safety (M K N m n : ℕ)
    (hdM : PE_ROWS ∣ M) (hM : M ≤ M_DIM) (hdN : PE_COLS ∣ N) (hN : N ≤ N_DIM)
    (hK : K ≤ K_DIM) (hm : m < M) (hn : n < N) :
    (actReadIdxs M K).all (fun i => decide (i < M * K)) = true ∧
      (wgtReadIdxs K N).all (fun i => decide (i < K * N / 2)) = true ∧
      (scaleReadIdxs K N).all (fun i => decide (i < K * N / GROUP_SIZE)) = true ∧
      (AcacheWriteIdxs M K ++ AcacheReadIdxs M N K).all
        (fun t => decide (t.1 < 8 ∧ t.2.1 < PE_ROWS ∧ t.2.2 < K_DIM)) = true ∧
      (WcacheWriteIdxs N K ++ WcacheReadIdxs M N K).all
        (fun t => decide (t.1 < 32 ∧ t.2.1 < PE_COLS ∧ t.2.2 < K_DIM)) = true ∧
      (resultWriteIdxs M N).all (fun i => decide (i < M * N)) = true ∧
      (resultWriteIdxs M N).count (m * N + n) = 1 := by
  refine ⟨?_, ?_, ?_, ?_, ?_, ?_, ?_⟩
  · exact List.all_eq_true.mpr fun x hx => decide_eq_true (actReadIdxs_bound M K x hx)
  · exact List.all_eq_true.mpr fun x hx => decide_eq_true (wgtReadIdxs_bound K N hdN x hx)
  · exact List.all_eq_true.mpr fun x hx => decide_eq_true (scaleReadIdxs_bound K N hdN x hx)
  · refine List.all_eq_true.mpr fun x hx => decide_eq_true ?_
    rcases List.mem_append.mp hx with h | h
    · exact AcacheWriteIdxs_bound M K hM hK x h
    · exact AcacheReadIdxs_bound M N K hM hK x h
  · refine List.all_eq_true.mpr fun x hx => decide_eq_true ?_
    rcases List.mem_append.mp hx with h | h
    · exact WcacheWriteIdxs_bound N K hN hK x h
    · exact WcacheReadIdxs_bound M N K hN hK x h
  · exact List.all_eq_true.mpr fun x hx => decide_eq_true (resultWriteIdxs_bound M N x hx)
  · exact resultWriteIdxs_count M N m n hdM hdN hm hn

/-- C10, witness at M = K = N = 16, output element (0, 0). -/
theorem C10_witness :
    (actReadIdxs 16 16).all (fun i => decide (i < 16 * 16)) = true ∧
      (wgtReadIdxs 16 16).all (fun i => decide (i < 16 * 16 / 2)) = true ∧
      (scaleReadIdxs 16 16).all (fun i => decide (i < 16 * 16 / GROUP_SIZE)) = true ∧
      (AcacheWriteIdxs 16 16 ++ AcacheReadIdxs 16 16 16).all
        (fun t => decide (t.1 < 8 ∧ t.2.1 < PE_ROWS ∧ t.2.2 < K_DIM)) = true ∧
      (WcacheWriteIdxs 16 16 ++ WcacheReadIdxs 16 16 16).all
        (fun t => decide (t.1 < 32 ∧ t.2.1 < PE_COLS ∧ t.2.2 < K_DIM)) = true ∧
      (resultWriteIdxs 16 16).all (fun i => decide (i < 16 * 16)) = true ∧
      (resultWriteIdxs 16 16).count (0 * 16 + 0) = 1 :=
  C10_memory_safety 16 16 16 0 0 (by decide) (by decide) (by decide) (by decide)
    (by decide) (by decide) (by decide)

end SA
